import Mathlib

/-!
Verification of timescale/benchmark-postgres.

A verification development for the two command line programs of the repository:

* `cmd/timescaledb-benchmark-query/main.go`: the dispatcher (`main`) and the
  workers (`processQueries`) that run every query twice and accumulate the
  cold and the warm latencies;
* `cmd/timescaledb-benchmark-delete/main.go`: the loop that deletes `--limit`
  consecutive ranges of `--amount` each.

Go's `int64` is an `Int` that is wrapped into the two's complement range after
every addition (`wrap64`), Go's integer division is `Int.tdiv`, goroutines are
an interleaving semantics (`step`) over an explicit state. The database, the
clock and `fmt.Sprintf` are parameters: a query of the file carries what the
environment answers while it is processed. Instants of `time.Time` and the
counter of the `sync.WaitGroup` are unbounded integers; the rounding of
`float64` is not modelled, a quotient is kept as its two integer operands.
-/

namespace BenchmarkPostgres

/-! ## Machine arithmetic -/

/-- Two's complement wrap of an integer into the range of Go's `int64`. -/
def wrap64 (x : Int) : Int :=
  (x + 9223372036854775808) % 18446744073709551616 - 9223372036854775808

/-- The range of Go's `int64`. -/
def inInt64 (x : Int) : Prop :=
  -9223372036854775808 ≤ x ∧ x < 9223372036854775808

instance (x : Int) : Decidable (inInt64 x) := by
  unfold inInt64; infer_instance

/-- Go's `time.Time.Sub`: the difference of two clock readings (in
nanoseconds), saturated at the largest and the smallest `time.Duration`. -/
def timeSub (t u : Int) : Int :=
  if t - u > 9223372036854775807 then 9223372036854775807
  else if t - u < -9223372036854775808 then -9223372036854775808
  else t - u

/-- The expression `took.Nanoseconds() / 1e6`: Go's integer division, which
truncates toward zero. -/
def msOf (took : Int) : Int :=
  Int.tdiv took 1000000

/-! ## The mocked environment -/

/-- One line of the query file together with what the (mocked) environment
answers while a worker processes it: whether the first and the second
`db.Queryx` return an error, and the four readings that the four calls of
`time.Now()` of one loop iteration return, in the order of the calls
(lines 118, 124, 127 and 133). -/
structure Query where
  template : String
  coldErr : Bool
  warmErr : Bool
  t0 : Int
  t1 : Int
  t2 : Int
  t3 : Int
deriving DecidableEq, Repr

/-- The duration `took` of the cold execution (line 124). -/
def Query.coldTook (q : Query) : Int := timeSub q.t1 q.t0

/-- The duration `took` of the warm execution (line 133). -/
def Query.warmTook (q : Query) : Int := timeSub q.t3 q.t2

/-- Both executions of the query succeed. -/
def Query.succeeds (q : Query) : Prop := q.coldErr = false ∧ q.warmErr = false

instance (q : Query) : Decidable q.succeeds := by
  unfold Query.succeeds; infer_instance

/-- The clock readings of the iteration do not decrease in call order. -/
def Query.clockMonotone (q : Query) : Prop := q.t0 ≤ q.t1 ∧ q.t1 ≤ q.t2 ∧ q.t2 ≤ q.t3

instance (q : Query) : Decidable q.clockMonotone := by
  unfold Query.clockMonotone; infer_instance

/-- The parts of the program's configuration and environment that the workers
use: the `--table` flag, `fmt.Sprintf` applied to a template and one argument,
the `--workers` flag, the capacity given to `make(chan string, _)`, the lines
of the query file, and whether `sqlx.MustConnect` succeeds for the i-th
worker. -/
structure Cfg where
  table : String
  sprintf : String → String → String
  workers : Nat
  cap : Nat
  rows : List Query
  connOk : Nat → Bool

/-! ## The worker: `processQueries` -/

/-- One completed iteration of the worker loop, as the worker measured it. -/
structure Measurement where
  stmt : String
  coldStart : Int
  coldEnd : Int
  warmStart : Int
  warmEnd : Int
deriving DecidableEq, Repr

/-- The local variables `sumCold`, `sumWarm` and `count` of `processQueries`,
with two traces: the statements passed to `db.Queryx`, in order, and the
measurements of the completed iterations. -/
structure Locals where
  sumCold : Int
  sumWarm : Int
  count : Int
  issued : List String
  meas : List Measurement
deriving DecidableEq, Repr

/-- Lines 113-115. -/
def Locals.zero : Locals := ⟨0, 0, 0, [], []⟩

/-- How a piece of worker code ends: it falls through with new locals, or it
panics (lines 121 and 130), which ends the process. -/
inductive Outcome where
  | next (l : Locals)
  | panic (l : Locals)
deriving DecidableEq, Repr

/-- The locals at the end of a piece of worker code. -/
def Outcome.locals : Outcome → Locals
  | .next l => l
  | .panic l => l

/-- Lines 117-136: the body of the loop `for qFmt := range queryChan`. -/
def loopBody (cfg : Cfg) (l : Locals) (qr : Query) : Outcome :=
  let q := cfg.sprintf qr.template cfg.table
  let start := qr.t0
  let l1 := { l with issued := l.issued ++ [q] }
  if qr.coldErr then .panic l1
  else
    let took := timeSub qr.t1 start
    let l2 := { l1 with sumCold := wrap64 (l1.sumCold + msOf took) }
    let start2 := qr.t2
    let l3 := { l2 with issued := l2.issued ++ [q] }
    if qr.warmErr then .panic l3
    else
      let took2 := timeSub qr.t3 start2
      let l4 := { l3 with sumWarm := wrap64 (l3.sumWarm + msOf took2) }
      .next { l4 with count := wrap64 (l4.count + 1),
                      meas := l4.meas ++ [⟨q, start, qr.t1, start2, qr.t3⟩] }

/-- Lines 116-137 for a worker that receives the given sequence and then sees
the channel closed and drained. -/
def workerLoop (cfg : Cfg) : Locals → List Query → Outcome
  | l, [] => .next l
  | l, q :: qs =>
    match loopBody cfg l q with
    | .next l2 => workerLoop cfg l2 qs
    | .panic l2 => .panic l2

/-- Lines 113-137: the loop of `processQueries` from its initial locals. -/
def processQueries (cfg : Cfg) (received : List Query) : Outcome :=
  workerLoop cfg Locals.zero received

/-! ## The shared totals -/

/-- The package variables `cold`, `warm` and `cnt`. -/
structure Globals where
  cold : Int
  warm : Int
  cnt : Int
deriving DecidableEq, Repr

/-- One call of `atomic.AddInt64` on one of the three package variables. -/
inductive AddOp where
  | cold (v : Int)
  | warm (v : Int)
  | cnt (v : Int)
deriving DecidableEq, Repr

/-- The effect of one `atomic.AddInt64`. -/
def applyAdd (g : Globals) : AddOp → Globals
  | .cold v => { g with cold := wrap64 (g.cold + v) }
  | .warm v => { g with warm := wrap64 (g.warm + v) }
  | .cnt v => { g with cnt := wrap64 (g.cnt + v) }

/-- Lines 139-141: the three additions of one worker, in program order. -/
def contribution (l : Locals) : List AddOp :=
  [.cold l.sumCold, .warm l.sumWarm, .cnt l.count]

/-- The totals of a worker as a value of the shared variables. -/
def Locals.totals (l : Locals) : Globals := ⟨l.sumCold, l.sumWarm, l.count⟩

/-! ## The report -/

/-- A `float64` as far as the report needs it: not a number, an infinity, or
the finite quotient of two integers (the float nearest to `num / den`). -/
inductive F64 where
  | nan
  | posInf
  | negInf
  | quot (num den : Int)
deriving DecidableEq, Repr

/-- The expression `float64(a) / float64(b)` of lines 105 and 106. Go does not
panic on a floating point division by zero: it yields NaN or an infinity. -/
def fdiv (a b : Int) : F64 :=
  if b = 0 then
    if a = 0 then .nan else if 0 < a then .posInf else .negInf
  else .quot a b

/-- The exact value of a finite quotient. -/
def F64.exact : F64 → Option ℚ
  | .quot a b => some ((a : ℚ) / (b : ℚ))
  | _ => none

/-- One printed line: the count and the average. -/
structure Line where
  n : Int
  avg : F64
deriving DecidableEq, Repr

/-! ## The dispatcher and the workers as an interleaving semantics -/

/-- Where a worker goroutine stands in `processQueries`. -/
inductive WPc where
  | connect
  | recv
  | body (q : Query)
  | addCold
  | addWarm
  | addCnt
  | done
  | exited
  | panicked
deriving DecidableEq, Repr

/-- A worker goroutine: its program point and locals, with two traces, the
sequence it received from the channel and the number of `atomic.AddInt64`
calls it has made. -/
structure Worker where
  pc : WPc
  loc : Locals
  recvd : List Query
  adds : Nat
deriving DecidableEq, Repr

/-- A goroutine just started by `go processQueries()`. -/
def Worker.init : Worker := ⟨.connect, Locals.zero, [], 0⟩

/-- Where the main goroutine stands in `main`: in the loop of line 94 with
counter `i`, in the loop of line 99 with the rows still to send (line 102 when
none is left), at line 103, at line 105, at line 106, or returned. -/
inductive MainPc where
  | spawn (i : Nat)
  | push (rest : List Query)
  | wait
  | print1
  | print2
  | exited
deriving DecidableEq, Repr

/-- The state of the process: the main goroutine, the channel `queryChan`
(buffer and closed flag), the counter of `workersGroup`, the package variables,
the worker goroutines and the lines printed so far. -/
structure State where
  pc : MainPc
  buf : List Query
  closed : Bool
  wg : Int
  g : Globals
  ws : List Worker
  out : List Line
deriving DecidableEq, Repr

/-- The state after line 92: the channel is made, nothing is started. -/
def State.init : State := ⟨.spawn 0, [], false, 0, ⟨0, 0, 0⟩, [], []⟩

/-- A scheduling decision: the main goroutine moves, the i-th worker moves, or
the main goroutine hands the value it sends directly to the i-th worker, which
waits in its receive. -/
inductive Act where
  | main
  | worker (i : Nat)
  | handoff (i : Nat)
deriving DecidableEq, Repr

/-- One move of the main goroutine (lines 94-106); `none` when it is blocked
or has returned. -/
def stepMain (cfg : Cfg) (s : State) : Option State :=
  match s.pc with
  | .spawn i =>
    if i < cfg.workers then
      some { s with wg := s.wg + 1, ws := s.ws ++ [Worker.init], pc := .spawn (i + 1) }
    else some { s with pc := .push cfg.rows }
  | .push (r :: rest) =>
    if s.buf.length < cfg.cap then some { s with buf := s.buf ++ [r], pc := .push rest }
    else none
  | .push [] => some { s with closed := true, pc := .wait }
  | .wait => if s.wg = 0 then some { s with pc := .print1 } else none
  | .print1 =>
    some { s with out := s.out ++ [⟨s.g.cnt, fdiv s.g.cold s.g.cnt⟩], pc := .print2 }
  | .print2 =>
    some { s with out := s.out ++ [⟨s.g.cnt, fdiv s.g.warm s.g.cnt⟩], pc := .exited }
  | .exited => none

/-- A send of the main goroutine that is received at once by the i-th worker,
waiting at line 116 while the buffer is empty. -/
def stepHandoff (s : State) (i : Nat) : Option State :=
  match s.pc, s.buf, s.ws[i]? with
  | .push (r :: rest), [], some w =>
    if w.pc = .recv then
      some { s with pc := .push rest,
                    ws := s.ws.set i { w with pc := .body r, recvd := w.recvd ++ [r] } }
    else none
  | _, _, _ => none

/-- One move of the i-th worker (lines 110-142); `none` when it is blocked, has
returned or has panicked. An iteration of the loop (lines 117-136) uses only the
worker's own connection and locals, so it is one move. A panic ends the
process; the other goroutines may still move until it has ended, so they are
not stopped here, and every state of the program is a state of this
semantics. -/
def stepWorker (cfg : Cfg) (s : State) (i : Nat) : Option State :=
  match s.ws[i]? with
  | none => none
  | some w =>
    match w.pc with
    | .connect =>
      if cfg.connOk i then some { s with ws := s.ws.set i { w with pc := .recv } }
      else some { s with ws := s.ws.set i { w with pc := .panicked } }
    | .recv =>
      match s.buf with
      | q :: rest =>
        some { s with buf := rest,
                      ws := s.ws.set i { w with pc := .body q, recvd := w.recvd ++ [q] } }
      | [] =>
        if s.closed then some { s with ws := s.ws.set i { w with pc := .addCold } }
        else none
    | .body q =>
      match loopBody cfg w.loc q with
      | .next l => some { s with ws := s.ws.set i { w with pc := .recv, loc := l } }
      | .panic l => some { s with ws := s.ws.set i { w with pc := .panicked, loc := l } }
    | .addCold =>
      some { s with g := applyAdd s.g (.cold w.loc.sumCold),
                    ws := s.ws.set i { w with pc := .addWarm, adds := w.adds + 1 } }
    | .addWarm =>
      some { s with g := applyAdd s.g (.warm w.loc.sumWarm),
                    ws := s.ws.set i { w with pc := .addCnt, adds := w.adds + 1 } }
    | .addCnt =>
      some { s with g := applyAdd s.g (.cnt w.loc.count),
                    ws := s.ws.set i { w with pc := .done, adds := w.adds + 1 } }
    | .done => some { s with wg := s.wg - 1, ws := s.ws.set i { w with pc := .exited } }
    | .exited => none
    | .panicked => none

/-- One scheduled move of the process. -/
def step (cfg : Cfg) (s : State) : Act → Option State
  | .main => stepMain cfg s
  | .worker i => stepWorker cfg s i
  | .handoff i => stepHandoff s i

/-- The state after a schedule, when every move of it is enabled. -/
def runActs (cfg : Cfg) : State → List Act → Option State
  | s, [] => some s
  | s, a :: as =>
    match step cfg s a with
    | some s2 => runActs cfg s2 as
    | none => none

/-- The states of the executions of the program. -/
def Reachable (cfg : Cfg) (s : State) : Prop :=
  ∃ acts, runActs cfg State.init acts = some s

/-- The main goroutine has returned from `workersGroup.Wait()`. -/
def MainPc.pastWait : MainPc → Bool
  | .print1 => true
  | .print2 => true
  | .exited => true
  | _ => false

/-- The configuration that `main` sets up: the capacity of the channel is the
number of workers (line 82). -/
def mainCfg (table : String) (sprintf : String → String → String) (workers : Nat)
    (rows : List Query) (connOk : Nat → Bool) : Cfg :=
  ⟨table, sprintf, workers, workers, rows, connOk⟩

/-! ## The worker loop in closed form -/

/-- The milliseconds that the cold execution of a query adds to `sumCold`. -/
def Query.coldMs (q : Query) : Int := msOf q.coldTook

/-- The milliseconds that the warm execution of a query adds to `sumWarm`. -/
def Query.warmMs (q : Query) : Int := msOf q.warmTook

/-- The statement that the worker builds from a template (line 117). -/
def Cfg.stmtOf (cfg : Cfg) (q : Query) : String := cfg.sprintf q.template cfg.table

/-- The measurement that a completed iteration records. -/
def Cfg.measOf (cfg : Cfg) (q : Query) : Measurement :=
  ⟨cfg.stmtOf q, q.t0, q.t1, q.t2, q.t3⟩

/-- The locals after a worker has processed a sequence of succeeding queries. -/
def Locals.after (cfg : Cfg) : Locals → List Query → Locals
  | l, [] => l
  | l, q :: qs =>
    Locals.after cfg ⟨wrap64 (l.sumCold + q.coldMs), wrap64 (l.sumWarm + q.warmMs),
      wrap64 (l.count + 1), l.issued ++ [cfg.stmtOf q, cfg.stmtOf q],
      l.meas ++ [cfg.measOf q]⟩ qs

/-! ## Invariants of the interleaving semantics -/

/-- The worker has left the receive loop (it is at line 139 or later). -/
def WPc.pastLoop : WPc → Bool
  | .addCold => true
  | .addWarm => true
  | .addCnt => true
  | .done => true
  | .exited => true
  | _ => false

/-- The number of `atomic.AddInt64` calls that lie behind a program point. -/
def WPc.addsDone : WPc → Nat
  | .addWarm => 1
  | .addCnt => 2
  | .done => 3
  | .exited => 3
  | _ => 0

/-- The rows that the main goroutine has still to send. -/
def MainPc.remaining (rows : List Query) : MainPc → List Query
  | .spawn _ => rows
  | .push rest => rest
  | _ => []

/-- The main goroutine has closed the channel (it is past line 102). -/
def MainPc.hasClosed : MainPc → Bool
  | .spawn _ => false
  | .push _ => false
  | _ => true

/-- The lines that the main goroutine has printed when it stands at a program
point, for the given values of the package variables. -/
def MainPc.printed (g : Globals) : MainPc → List Line
  | .print2 => [⟨g.cnt, fdiv g.cold g.cnt⟩]
  | .exited => [⟨g.cnt, fdiv g.cold g.cnt⟩, ⟨g.cnt, fdiv g.warm g.cnt⟩]
  | _ => []

/-- What holds of every worker in every reachable state: the trace of its
additions agrees with its program point, and its locals are those of the loop
run on what it has received (without the query it is working on). -/
def WorkerInv (cfg : Cfg) (w : Worker) : Prop :=
  w.adds = w.pc.addsDone ∧
  match w.pc with
  | .body q => ∃ pre, w.recvd = pre ++ [q] ∧ processQueries cfg pre = .next w.loc
  | .panicked => True
  | _ => processQueries cfg w.recvd = .next w.loc

/-- What holds in every reachable state. -/
structure Inv (cfg : Cfg) (s : State) : Prop where
  spawned : match s.pc with
    | .spawn i => s.ws.length = i ∧ i ≤ cfg.workers
    | _ => s.ws.length = cfg.workers
  closedIff : s.closed = s.pc.hasClosed
  group : s.wg = ((s.ws.map (fun w => if w.pc = .exited then (0 : Int) else 1)).sum)
  workers : ∀ w ∈ s.ws, WorkerInv cfg w
  drained : ∀ w ∈ s.ws, w.pc.pastLoop = true → s.closed = true ∧ s.buf = []
  conserved : (s.ws.flatMap (fun w => w.recvd) ++ s.buf ++ s.pc.remaining cfg.rows).Perm cfg.rows
  coldSum : s.g.cold = wrap64 ((s.ws.map (fun w => if 1 ≤ w.adds then w.loc.sumCold else 0)).sum)
  warmSum : s.g.warm = wrap64 ((s.ws.map (fun w => if 2 ≤ w.adds then w.loc.sumWarm else 0)).sum)
  cntSum : s.g.cnt = wrap64 ((s.ws.map (fun w => if 3 ≤ w.adds then w.loc.count else 0)).sum)
  joined : s.pc.pastWait = true → ∀ w ∈ s.ws, w.pc = .exited
  output : s.out = s.pc.printed s.g
  connected : ∀ i w, s.ws[i]? = some w → w.pc ≠ .connect → w.pc ≠ .panicked →
    cfg.connOk i = true

/-! ## Concrete inputs -/

/-- Replaces every `%s` of a template by the argument; the flag tells that the
character before was a `%`. -/
def substS : Bool → List Char → List Char → List Char
  | false, [], _ => []
  | true, [], _ => ['%']
  | false, c :: rest, arg =>
    if c = '%' then substS true rest arg else c :: substS false rest arg
  | true, c :: rest, arg =>
    if c = 's' then arg ++ substS false rest arg
    else if c = '%' then '%' :: substS true rest arg
    else '%' :: c :: substS false rest arg

/-- A stand-in for `fmt.Sprintf` with one argument on templates whose only
verbs are `%s`. -/
def sprintfS (template arg : String) : String :=
  String.mk (substS false template.data arg.data)

/-- A query whose cold execution takes 10 ms and whose warm execution takes
4 ms (the scenario of the specification). -/
def q10_4 (template : String) : Query := ⟨template, false, false, 0, 10000000, 10000000, 14000000⟩

/-- Four templates and two workers, every execution 10 ms cold and 4 ms warm. -/
def cfgFourTwo : Cfg :=
  mainCfg "test" sprintfS 2 [q10_4 "SELECT a FROM %s", q10_4 "SELECT b FROM %s",
    q10_4 "SELECT c FROM %s", q10_4 "SELECT d FROM %s"] (fun _ => true)

/-- Two templates and three workers: more workers than queries. -/
def cfgTwoThree : Cfg :=
  mainCfg "test" sprintfS 3 [q10_4 "SELECT a FROM %s", q10_4 "SELECT b FROM %s"]
    (fun _ => true)

/-- An empty query file and one worker. -/
def cfgEmpty : Cfg := mainCfg "test" sprintfS 1 [] (fun _ => true)

/-- A query whose cold execution takes 10.5 ms and whose warm execution takes
just under one millisecond. -/
def qShort : Query := ⟨"SELECT a FROM %s", false, false, 0, 10500000, 10500000, 11499999⟩

/-- Three templates and two workers, every execution 10.5 ms cold and just
under one millisecond warm. -/
def cfgShortTwo : Cfg := mainCfg "test" sprintfS 2 [qShort, qShort, qShort] (fun _ => true)

/-- One template whose warm execution fails, one worker. -/
def cfgWarmFails : Cfg :=
  mainCfg "test" sprintfS 1 [⟨"SELECT a FROM %s", false, true, 0, 10000000, 10000000, 14000000⟩]
    (fun _ => true)

/-- The part of an addition that goes to `cold`. -/
def AddOp.coldPart : AddOp → Int
  | .cold v => v
  | _ => 0

/-- The part of an addition that goes to `warm`. -/
def AddOp.warmPart : AddOp → Int
  | .warm v => v
  | _ => 0

/-- The part of an addition that goes to `cnt`. -/
def AddOp.cntPart : AddOp → Int
  | .cnt v => v
  | _ => 0

/-- The state of `cfgWarmFails` in which the only worker has panicked at
line 130. -/
def statePanicked : State :=
  ⟨.push [], [], false, 1, ⟨0, 0, 0⟩,
    [⟨.panicked, ⟨10, 0, 0, ["SELECT a FROM test", "SELECT a FROM test"], []⟩,
      [⟨"SELECT a FROM %s", false, true, 0, 10000000, 10000000, 14000000⟩], 0⟩], []⟩

/-! ## The delete benchmark: `cmd/timescaledb-benchmark-delete/main.go` -/

namespace Delete

/-- The flags that the loop of `main` uses: `--table`, `--use-drop-chunks`,
`--amount` (a `time.Duration`, in nanoseconds) and `--limit` (a `uint`). -/
structure Flags where
  table : String
  dropChunks : Bool
  amount : Int
  limit : Nat

/-- What `t.Format(goTimeFmt)` prints for the instant `t` (nanoseconds since the
epoch, UTC): the layout `2006-01-02T15:04:05Z` has no fractional seconds, so the
text names the whole second that contains `t`; it is given here as the number
of that second. -/
def formatGoTime (t : Int) : Int := t / 1000000000

/-- The instant that a printed timestamp names. -/
def stampInstant (sec : Int) : Int := sec * 1000000000

/-- The two shapes of the query text: `SELECT drop_chunks('<older>'::TIMESTAMPTZ,
'<table>')` and `DELETE FROM "<table>" WHERE time >= '<lo>' AND time < '<hi>'`,
with the timestamps as `formatGoTime` prints them. -/
inductive DeleteQuery where
  | dropChunks (older : Int) (table : String)
  | delete (table : String) (lo hi : Int)
deriving DecidableEq, Repr

/-- Lines 64-70. -/
def getDeleteQuery (f : Flags) (t : Int) : DeleteQuery :=
  if f.dropChunks then .dropChunks (formatGoTime (t + f.amount)) f.table
  else
    let stop := t + f.amount
    .delete f.table (formatGoTime t) (formatGoTime stop)

/-- The instants that the `WHERE` clause of a `DELETE` selects. -/
def DeleteQuery.selects : DeleteQuery → Int → Prop
  | .delete _ lo hi, x => stampInstant lo ≤ x ∧ x < stampInstant hi
  | .dropChunks _ _, _ => False

/-- Lines 83-98: the iterations of the loop that are left when the counter is
`i` (`left` is `limit - i`) and the range starts at `rangeStart`; `execOk j`
tells whether `db.Queryx` succeeds in iteration `j`. The result is the list of
the queries passed to `db.Queryx` and whether the loop ended in the `panic` of
line 88. -/
def mainLoop (f : Flags) (execOk : Nat → Bool) : Nat → Nat → Int → List DeleteQuery × Bool
  | 0, _, _ => ([], false)
  | left + 1, i, rangeStart =>
    let q := getDeleteQuery f rangeStart
    if execOk i then
      let r := mainLoop f execOk left (i + 1) (rangeStart + f.amount)
      (q :: r.1, r.2)
    else ([q], true)

/-- Lines 82-98 of `main`, from the parsed start date. -/
def main (f : Flags) (execOk : Nat → Bool) (rangeStart : Int) : List DeleteQuery × Bool :=
  mainLoop f execOk f.limit 0 rangeStart

end Delete

/-! # Lemmas -/

/-! ## Arithmetic lemmas -/

theorem wrap64_add_left (a b : Int) : wrap64 (wrap64 a + b) = wrap64 (a + b) := by
  unfold wrap64; omega

theorem wrap64_add_right (a b : Int) : wrap64 (a + wrap64 b) = wrap64 (a + b) := by
  unfold wrap64; omega

theorem wrap64_idem (a : Int) : wrap64 (wrap64 a) = wrap64 a := by
  unfold wrap64; omega

theorem wrap64_of_inInt64 {x : Int} (h : inInt64 x) : wrap64 x = x := by
  unfold inInt64 at h; unfold wrap64; omega

theorem inInt64_wrap64 (x : Int) : inInt64 (wrap64 x) := by
  unfold inInt64 wrap64; omega

theorem msOf_of_nonneg {d : Int} (h : 0 ≤ d) : msOf d = d / 1000000 := by
  unfold msOf
  exact Int.tdiv_eq_ediv h (by decide)

theorem msOf_eq_zero {d : Int} (h0 : 0 ≤ d) (h1 : d < 1000000) : msOf d = 0 := by
  rw [msOf_of_nonneg h0]; omega

theorem inInt64_timeSub (t u : Int) : inInt64 (timeSub t u) := by
  unfold inInt64 timeSub; split_ifs <;> omega

theorem loopBody_of_succeeds (cfg : Cfg) (l : Locals) (q : Query) (h : q.succeeds) :
    loopBody cfg l q =
      .next ⟨wrap64 (l.sumCold + q.coldMs), wrap64 (l.sumWarm + q.warmMs),
        wrap64 (l.count + 1), l.issued ++ [cfg.stmtOf q, cfg.stmtOf q],
        l.meas ++ [cfg.measOf q]⟩ := by
  obtain ⟨hc, hw⟩ := h
  simp [loopBody, hc, hw, Query.coldMs, Query.warmMs, Query.coldTook, Query.warmTook,
    Cfg.stmtOf, Cfg.measOf]

theorem loopBody_next_succeeds {cfg : Cfg} {l l2 : Locals} {q : Query}
    (h : loopBody cfg l q = .next l2) : q.succeeds := by
  unfold loopBody at h
  unfold Query.succeeds
  cases hc : q.coldErr <;> cases hw : q.warmErr <;> simp [hc, hw] at h ⊢

theorem loopBody_panic_of_not_succeeds (cfg : Cfg) (l : Locals) (q : Query)
    (h : ¬ q.succeeds) : ∃ l2, loopBody cfg l q = .panic l2 := by
  unfold Query.succeeds at h
  unfold loopBody
  cases hc : q.coldErr <;> cases hw : q.warmErr <;> simp [hc, hw] at h ⊢

theorem workerLoop_append (cfg : Cfg) (l : Locals) (xs ys : List Query) :
    workerLoop cfg l (xs ++ ys) =
      match workerLoop cfg l xs with
      | .next l2 => workerLoop cfg l2 ys
      | .panic l2 => .panic l2 := by
  induction xs generalizing l with
  | nil => simp [workerLoop]
  | cons x xs ih =>
    simp only [List.cons_append, workerLoop]
    cases hb : loopBody cfg l x with
    | next l2 => simp [ih]
    | panic l2 => simp

theorem workerLoop_next_succeeds {cfg : Cfg} {qs : List Query} {l l2 : Locals}
    (h : workerLoop cfg l qs = .next l2) : ∀ q ∈ qs, q.succeeds := by
  induction qs generalizing l with
  | nil => simp
  | cons x xs ih =>
    simp only [workerLoop] at h
    cases hb : loopBody cfg l x with
    | next l3 =>
      rw [hb] at h
      intro q hq
      rcases List.mem_cons.mp hq with rfl | hq
      · exact loopBody_next_succeeds hb
      · exact ih h q hq
    | panic l3 => rw [hb] at h; simp at h

theorem workerLoop_of_succeeds (cfg : Cfg) (qs : List Query) (l : Locals)
    (h : ∀ q ∈ qs, q.succeeds) : workerLoop cfg l qs = .next (l.after cfg qs) := by
  induction qs generalizing l with
  | nil => simp [workerLoop, Locals.after]
  | cons x xs ih =>
    have hx : x.succeeds := h x (List.mem_cons_self _ _)
    simp only [workerLoop, loopBody_of_succeeds cfg l x hx, Locals.after]
    exact ih _ (fun q hq => h q (List.mem_cons_of_mem _ hq))

theorem workerLoop_next_eq {cfg : Cfg} {qs : List Query} {l l2 : Locals}
    (h : workerLoop cfg l qs = .next l2) : l2 = l.after cfg qs := by
  have h2 := workerLoop_of_succeeds cfg qs l (workerLoop_next_succeeds h)
  rw [h] at h2
  exact Outcome.next.inj h2

theorem after_sumCold (cfg : Cfg) (qs : List Query) (l : Locals) :
    wrap64 (l.after cfg qs).sumCold = wrap64 (l.sumCold + (qs.map Query.coldMs).sum) := by
  induction qs generalizing l with
  | nil => simp [Locals.after]
  | cons x xs ih =>
    simp only [Locals.after, List.map_cons, List.sum_cons]
    rw [ih, wrap64_add_left, add_assoc]

theorem after_sumWarm (cfg : Cfg) (qs : List Query) (l : Locals) :
    wrap64 (l.after cfg qs).sumWarm = wrap64 (l.sumWarm + (qs.map Query.warmMs).sum) := by
  induction qs generalizing l with
  | nil => simp [Locals.after]
  | cons x xs ih =>
    simp only [Locals.after, List.map_cons, List.sum_cons]
    rw [ih, wrap64_add_left, add_assoc]

theorem after_count (cfg : Cfg) (qs : List Query) (l : Locals) :
    wrap64 (l.after cfg qs).count = wrap64 (l.count + (qs.length : Int)) := by
  induction qs generalizing l with
  | nil => simp [Locals.after]
  | cons x xs ih =>
    simp only [Locals.after, List.length_cons]
    rw [ih, wrap64_add_left]
    congr 1
    push_cast
    ring

theorem after_inRange (cfg : Cfg) (qs : List Query) (l : Locals)
    (h : inInt64 l.sumCold ∧ inInt64 l.sumWarm ∧ inInt64 l.count) :
    inInt64 (l.after cfg qs).sumCold ∧ inInt64 (l.after cfg qs).sumWarm ∧
      inInt64 (l.after cfg qs).count := by
  induction qs generalizing l with
  | nil => simpa [Locals.after] using h
  | cons x xs ih =>
    simp only [Locals.after]
    exact ih _ ⟨inInt64_wrap64 _, inInt64_wrap64 _, inInt64_wrap64 _⟩

theorem after_issued (cfg : Cfg) (qs : List Query) (l : Locals) :
    (l.after cfg qs).issued =
      l.issued ++ qs.flatMap (fun q => [cfg.stmtOf q, cfg.stmtOf q]) := by
  induction qs generalizing l with
  | nil => simp [Locals.after]
  | cons x xs ih =>
    simp only [Locals.after, List.flatMap_cons]
    rw [ih]
    simp

theorem after_meas (cfg : Cfg) (qs : List Query) (l : Locals) :
    (l.after cfg qs).meas = l.meas ++ qs.map cfg.measOf := by
  induction qs generalizing l with
  | nil => simp [Locals.after]
  | cons x xs ih =>
    simp only [Locals.after, List.map_cons]
    rw [ih]
    simp

theorem inInt64_zero : inInt64 0 := by
  unfold inInt64; omega

/-! ## The invariant is preserved -/

theorem set_decomp {α : Type} {l : List α} {i : Nat} {w : α} (h : l[i]? = some w) :
    ∃ l1 l2, l = l1 ++ w :: l2 ∧ l1.length = i ∧ ∀ w2, l.set i w2 = l1 ++ w2 :: l2 := by
  induction l generalizing i with
  | nil => simp at h
  | cons x xs ih =>
    cases i with
    | zero =>
      simp at h
      subst h
      exact ⟨[], xs, by simp, by simp, by simp⟩
    | succ j =>
      simp at h
      obtain ⟨l1, l2, h1, h2, h3⟩ := ih h
      exact ⟨x :: l1, l2, by simp [h1], by simp [h2], by simp [h3]⟩

theorem indicator_sum_nonneg (ws : List Worker) :
    0 ≤ (ws.map (fun w => if w.pc = WPc.exited then (0 : Int) else 1)).sum := by
  induction ws with
  | nil => simp
  | cons x xs ih =>
    simp only [List.map_cons, List.sum_cons]
    split_ifs <;> omega

theorem all_exited_of_sum_zero (ws : List Worker)
    (h : (ws.map (fun w => if w.pc = WPc.exited then (0 : Int) else 1)).sum = 0) :
    ∀ w ∈ ws, w.pc = .exited := by
  induction ws with
  | nil => simp
  | cons x xs ih =>
    simp only [List.map_cons, List.sum_cons] at h
    have hn := indicator_sum_nonneg xs
    intro w hw
    rcases List.mem_cons.mp hw with rfl | hw
    · by_contra hx
      simp only [hx, if_false] at h
      omega
    · refine ih ?_ w hw
      split_ifs at h <;> omega

theorem printed_of_not_pastWait {pc : MainPc} (g : Globals) (h : pc.pastWait = false) :
    pc.printed g = [] := by
  cases pc <;> simp [MainPc.pastWait, MainPc.printed] at h ⊢

theorem inv_init (cfg : Cfg) : Inv cfg State.init := by
  constructor <;> simp [State.init, MainPc.hasClosed, MainPc.remaining, MainPc.pastWait,
    MainPc.printed, wrap64]

theorem workerInv_init (cfg : Cfg) : WorkerInv cfg Worker.init :=
  ⟨rfl, rfl⟩

theorem inv_stepMain {cfg : Cfg} {s s2 : State} (h : Inv cfg s)
    (hs : stepMain cfg s = some s2) : Inv cfg s2 := by
  obtain ⟨h1, h2, h3, h4, h5, h6, h7, h8, h9, h10, h11, h12⟩ := h
  obtain ⟨pc, buf, closed, wg, g, ws, out⟩ := s
  simp only at h1 h2 h3 h4 h5 h6 h7 h8 h9 h10 h11 h12
  unfold stepMain at hs
  cases pc with
  | spawn i =>
    simp only at hs h1
    split_ifs at hs with hi
    · simp only [Option.some.injEq] at hs
      subst hs
      refine ⟨?_, h2, ?_, ?_, ?_, ?_, ?_, ?_, ?_, ?_, h11, ?_⟩
      · simp only [List.length_append, List.length_singleton]; omega
      · simp only [List.map_append, List.sum_append, h3, Worker.init]; simp
      · intro w hw
        rcases List.mem_append.mp hw with hw | hw
        · exact h4 w hw
        · rw [List.mem_singleton.mp hw]; exact workerInv_init cfg
      · intro w hw hp
        rcases List.mem_append.mp hw with hw | hw
        · exact h5 w hw hp
        · rw [List.mem_singleton.mp hw] at hp; simp [Worker.init, WPc.pastLoop] at hp
      · simpa [List.flatMap_append, Worker.init, MainPc.remaining] using h6
      · simp only [List.map_append, List.sum_append, h7, Worker.init]; simp
      · simp only [List.map_append, List.sum_append, h8, Worker.init]; simp
      · simp only [List.map_append, List.sum_append, h9, Worker.init]; simp
      · intro hp; simp [MainPc.pastWait] at hp
      · intro j w hj
        by_cases hlt : j < ws.length
        · rw [List.getElem?_append_left hlt] at hj
          exact h12 j w hj
        · rw [List.getElem?_append_right (by omega)] at hj
          intro hc
          cases hjj : j - ws.length with
          | zero =>
            rw [hjj] at hj
            simp only [List.getElem?_cons_zero, Option.some.injEq] at hj
            subst hj
            simp [Worker.init] at hc
          | succ m => rw [hjj] at hj; simp at hj
    · simp only [Option.some.injEq] at hs
      subst hs
      refine ⟨?_, h2, h3, h4, h5, h6, h7, h8, h9, ?_, h11, h12⟩
      · simp only; omega
      · intro hp; simp [MainPc.pastWait] at hp
  | push rest =>
    cases rest with
    | nil =>
      simp only [Option.some.injEq] at hs
      subst hs
      refine ⟨h1, rfl, h3, h4, ?_, ?_, h7, h8, h9, ?_, h11, h12⟩
      · intro w hw hp
        exact ⟨rfl, (h5 w hw hp).2⟩
      · simpa [MainPc.remaining] using h6
      · intro hp; simp [MainPc.pastWait] at hp
    | cons r rest =>
      simp only at hs
      split_ifs at hs with hc
      simp only [Option.some.injEq] at hs
      subst hs
      refine ⟨h1, h2, h3, h4, ?_, ?_, h7, h8, h9, ?_, h11, h12⟩
      · intro w hw hp
        have := (h5 w hw hp).1
        rw [h2] at this
        simp [MainPc.hasClosed] at this
      · simp only [MainPc.remaining] at h6 ⊢
        refine List.Perm.trans ?_ h6
        simp only [List.append_assoc, List.singleton_append]
        exact List.Perm.refl _
      · intro hp; simp [MainPc.pastWait] at hp
  | wait =>
    simp only at hs
    split_ifs at hs with hw0
    simp only [Option.some.injEq] at hs
    subst hs
    refine ⟨h1, h2, h3, h4, h5, h6, h7, h8, h9, ?_, h11, h12⟩
    intro _ w hw
    exact all_exited_of_sum_zero ws (by rw [← h3]; exact hw0) w hw
  | print1 =>
    simp only [Option.some.injEq] at hs
    subst hs
    refine ⟨h1, h2, h3, h4, h5, h6, h7, h8, h9, ?_, ?_, h12⟩
    · intro _; exact h10 rfl
    · simp only [h11, MainPc.printed]; simp
  | print2 =>
    simp only [Option.some.injEq] at hs
    subst hs
    refine ⟨h1, h2, h3, h4, h5, h6, h7, h8, h9, ?_, ?_, h12⟩
    · intro _; exact h10 rfl
    · simp only [h11, MainPc.printed]; simp
  | exited => simp at hs


theorem inv_workerUpdate {cfg : Cfg} {pc : MainPc} {buf buf2 : List Query} {closed : Bool}
    {wg wg2 : Int} {g g2 : Globals} {out : List Line} {l1 l2 : List Worker} {w w2 : Worker}
    (h : Inv cfg ⟨pc, buf, closed, wg, g, l1 ++ w :: l2, out⟩)
    (hne : w.pc ≠ .exited)
    (hwg : wg2 = wg - (if w2.pc = .exited then 1 else 0))
    (hw2 : WorkerInv cfg w2)
    (hdr : w2.pc.pastLoop = true → closed = true ∧ buf2 = [])
    (hbuf : buf = [] → buf2 = [])
    (hperm : (w2.recvd ++ buf2).Perm (w.recvd ++ buf))
    (hcold : g2.cold = wrap64 (g.cold + ((if 1 ≤ w2.adds then w2.loc.sumCold else 0)
      - (if 1 ≤ w.adds then w.loc.sumCold else 0))))
    (hwarm : g2.warm = wrap64 (g.warm + ((if 2 ≤ w2.adds then w2.loc.sumWarm else 0)
      - (if 2 ≤ w.adds then w.loc.sumWarm else 0))))
    (hcnt : g2.cnt = wrap64 (g.cnt + ((if 3 ≤ w2.adds then w2.loc.count else 0)
      - (if 3 ≤ w.adds then w.loc.count else 0))))
    (hconn : w2.pc ≠ .connect → w2.pc ≠ .panicked →
      (w.pc ≠ .connect ∧ w.pc ≠ .panicked) ∨ cfg.connOk l1.length = true) :
    Inv cfg ⟨pc, buf2, closed, wg2, g2, l1 ++ w2 :: l2, out⟩ := by
  obtain ⟨h1, h2, h3, h4, h5, h6, h7, h8, h9, h10, h11, h12⟩ := h
  simp only at h1 h2 h3 h4 h5 h6 h7 h8 h9 h10 h11 h12
  have hnw : pc.pastWait = false := by
    by_contra hp
    simp only [Bool.not_eq_false] at hp
    exact hne (h10 hp w (by simp))
  refine ⟨?_, h2, ?_, ?_, ?_, ?_, ?_, ?_, ?_, ?_, ?_, ?_⟩
  · simpa using h1
  · simp only [List.map_append, List.map_cons, List.sum_append, List.sum_cons, hne,
      if_false] at h3 ⊢
    rw [hwg, h3]
    split_ifs <;> omega
  · intro x hx
    rcases List.mem_append.mp hx with hx | hx
    · exact h4 x (List.mem_append_left _ hx)
    · rcases List.mem_cons.mp hx with rfl | hx
      · exact hw2
      · exact h4 x (List.mem_append_right _ (List.mem_cons_of_mem _ hx))
  · intro x hx hp
    simp only
    rcases List.mem_append.mp hx with hx | hx
    · have := h5 x (List.mem_append_left _ hx) hp
      exact ⟨this.1, hbuf this.2⟩
    · rcases List.mem_cons.mp hx with rfl | hx
      · exact hdr hp
      · have := h5 x (List.mem_append_right _ (List.mem_cons_of_mem _ hx)) hp
        exact ⟨this.1, hbuf this.2⟩
  · refine List.Perm.trans ?_ h6
    simp only [List.flatMap_append, List.flatMap_cons, List.append_assoc]
    refine List.Perm.append_left _ ?_
    generalize (l2.flatMap fun w => w.recvd) = R
    generalize pc.remaining cfg.rows = M
    rw [← Multiset.coe_eq_coe] at hperm ⊢
    simp only [← Multiset.coe_add] at hperm ⊢
    have e : ∀ a b : Multiset Query,
        a + ((R : Multiset Query) + (b + (M : Multiset Query))) = (a + b) + (R + M) := by
      intro a b; abel
    rw [e, e, hperm]
  · simp only [List.map_append, List.map_cons, List.sum_append, List.sum_cons] at h7 ⊢
    rw [hcold, h7, wrap64_add_left]
    congr 1
    ring
  · simp only [List.map_append, List.map_cons, List.sum_append, List.sum_cons] at h8 ⊢
    rw [hwarm, h8, wrap64_add_left]
    congr 1
    ring
  · simp only [List.map_append, List.map_cons, List.sum_append, List.sum_cons] at h9 ⊢
    rw [hcnt, h9, wrap64_add_left]
    congr 1
    ring
  · intro hp
    simp only at hp
    rw [hnw] at hp
    simp at hp
  · simp only
    rw [printed_of_not_pastWait g2 hnw]
    rw [printed_of_not_pastWait g hnw] at h11
    exact h11
  · intro j x hj hc hp
    simp only at hj
    by_cases hlt : j < l1.length
    · rw [List.getElem?_append_left hlt] at hj
      exact h12 j x (by rw [List.getElem?_append_left hlt]; exact hj) hc hp
    · rw [List.getElem?_append_right (by omega)] at hj
      cases hjj : j - l1.length with
      | zero =>
        rw [hjj] at hj
        simp only [List.getElem?_cons_zero, Option.some.injEq] at hj
        subst hj
        have hjl : j = l1.length := by omega
        subst hjl
        rcases hconn hc hp with ⟨hc2, hp2⟩ | hok
        · exact h12 l1.length w (by rw [List.getElem?_append_right (le_refl _)]; simp) hc2 hp2
        · exact hok
      | succ m =>
        rw [hjj] at hj
        simp only [List.getElem?_cons_succ] at hj
        refine h12 j x ?_ hc hp
        rw [List.getElem?_append_right (by omega), hjj]
        simpa using hj


theorem Inv.wrapped {cfg : Cfg} {s : State} (h : Inv cfg s) :
    wrap64 s.g.cold = s.g.cold ∧ wrap64 s.g.warm = s.g.warm ∧ wrap64 s.g.cnt = s.g.cnt := by
  refine ⟨?_, ?_, ?_⟩
  · rw [h.coldSum, wrap64_idem]
  · rw [h.warmSum, wrap64_idem]
  · rw [h.cntSum, wrap64_idem]

theorem inv_stepWorker {cfg : Cfg} {s s2 : State} {i : Nat} (h : Inv cfg s)
    (hs : stepWorker cfg s i = some s2) : Inv cfg s2 := by
  obtain ⟨pc, buf, closed, wg, g, ws, out⟩ := s
  obtain ⟨hgc, hgw, hgn⟩ := h.wrapped
  simp only at hgc hgw hgn
  unfold stepWorker at hs
  simp only at hs
  cases hw : ws[i]? with
  | none => simp [hw] at hs
  | some w =>
    obtain ⟨l1, l2, hl, hlen, hset⟩ := set_decomp hw
    subst hl
    have hWI : WorkerInv cfg w := h.workers w (by simp)
    have hDR := h.drained w (by simp)
    simp only at hDR
    rw [hw] at hs
    simp only [hset] at hs
    obtain ⟨wpc, loc, recvd, adds⟩ := w
    simp only at hs
    unfold WorkerInv at hWI
    simp only at hWI hDR
    cases wpc with
    | connect =>
      simp only [WPc.addsDone] at hWI
      obtain ⟨ha, hl⟩ := hWI
      simp only at hs
      split_ifs at hs
      · simp only [Option.some.injEq] at hs
        subst hs
        refine inv_workerUpdate h (by simp) (by simp) ⟨ha, hl⟩ (by simp [WPc.pastLoop]) id
          (List.Perm.refl _) ?_ ?_ ?_ ?_ <;> simp [ha, hgc, hgw, hgn, hlen, *]
      · simp only [Option.some.injEq] at hs
        subst hs
        refine inv_workerUpdate h (by simp) (by simp) ⟨ha, trivial⟩ (by simp [WPc.pastLoop]) id
          (List.Perm.refl _) ?_ ?_ ?_ ?_ <;> simp [ha, hgc, hgw, hgn, hlen, *]
    | recv =>
      simp only [WPc.addsDone] at hWI
      obtain ⟨ha, hl⟩ := hWI
      simp only at hs
      cases buf with
      | cons q rest =>
        simp only [Option.some.injEq] at hs
        subst hs
        refine inv_workerUpdate h (by simp) (by simp) ⟨ha, recvd, rfl, hl⟩
          (by simp [WPc.pastLoop]) (by simp) ?_ ?_ ?_ ?_ ?_
        · simp only [List.append_assoc, List.singleton_append]; exact List.Perm.refl _
        all_goals simp [ha, hgc, hgw, hgn, hlen, *]
      | nil =>
        simp only at hs
        split_ifs at hs with hc
        simp only [Option.some.injEq] at hs
        subst hs
        refine inv_workerUpdate h (by simp) (by simp) ⟨ha, hl⟩ (fun _ => ⟨hc, rfl⟩) id
          (List.Perm.refl _) ?_ ?_ ?_ ?_ <;> simp [ha, hgc, hgw, hgn, hlen, *]
    | body q =>
      simp only [WPc.addsDone] at hWI
      obtain ⟨ha, pre, hpre, hl⟩ := hWI
      simp only at hs
      cases hb : loopBody cfg loc q with
      | next l3 =>
        rw [hb] at hs
        simp only [Option.some.injEq] at hs
        subst hs
        refine inv_workerUpdate h (by simp) (by simp) ⟨ha, ?_⟩ (by simp [WPc.pastLoop]) id
          (List.Perm.refl _) ?_ ?_ ?_ ?_
        · simp only [processQueries] at hl ⊢
          rw [hpre, workerLoop_append, hl]
          simp [workerLoop, hb]
        all_goals simp [ha, hgc, hgw, hgn, hlen, *]
      | panic l3 =>
        rw [hb] at hs
        simp only [Option.some.injEq] at hs
        subst hs
        refine inv_workerUpdate h (by simp) (by simp) ⟨ha, trivial⟩ (by simp [WPc.pastLoop]) id
          (List.Perm.refl _) ?_ ?_ ?_ ?_ <;> simp [ha, hgc, hgw, hgn, hlen, *]
    | addCold =>
      simp only [WPc.addsDone] at hWI
      obtain ⟨ha, hl⟩ := hWI
      simp only [Option.some.injEq] at hs
      subst hs
      refine inv_workerUpdate h (by simp) (by simp) ⟨by simp [ha, WPc.addsDone], hl⟩
        (fun _ => hDR rfl) id (List.Perm.refl _) ?_ ?_ ?_ ?_ <;>
        simp [ha, hgc, hgw, hgn, applyAdd]
    | addWarm =>
      simp only [WPc.addsDone] at hWI
      obtain ⟨ha, hl⟩ := hWI
      simp only [Option.some.injEq] at hs
      subst hs
      refine inv_workerUpdate h (by simp) (by simp) ⟨by simp [ha, WPc.addsDone], hl⟩
        (fun _ => hDR rfl) id (List.Perm.refl _) ?_ ?_ ?_ ?_ <;>
        simp [ha, hgc, hgw, hgn, applyAdd]
    | addCnt =>
      simp only [WPc.addsDone] at hWI
      obtain ⟨ha, hl⟩ := hWI
      simp only [Option.some.injEq] at hs
      subst hs
      refine inv_workerUpdate h (by simp) (by simp) ⟨by simp [ha, WPc.addsDone], hl⟩
        (fun _ => hDR rfl) id (List.Perm.refl _) ?_ ?_ ?_ ?_ <;>
        simp [ha, hgc, hgw, hgn, applyAdd]
    | done =>
      simp only [WPc.addsDone] at hWI
      obtain ⟨ha, hl⟩ := hWI
      simp only [Option.some.injEq] at hs
      subst hs
      refine inv_workerUpdate h (by simp) (by simp) ⟨by simp [ha, WPc.addsDone], hl⟩
        (fun _ => hDR rfl) id (List.Perm.refl _) ?_ ?_ ?_ ?_ <;>
        simp [ha, hgc, hgw, hgn, hlen, *]
    | exited => simp at hs
    | panicked => simp at hs

theorem inv_stepHandoff {cfg : Cfg} {s s2 : State} {i : Nat} (h : Inv cfg s)
    (hs : stepHandoff s i = some s2) : Inv cfg s2 := by
  obtain ⟨pc, buf, closed, wg, g, ws, out⟩ := s
  obtain ⟨hgc, hgw, hgn⟩ := h.wrapped
  simp only at hgc hgw hgn
  unfold stepHandoff at hs
  simp only at hs
  split at hs
  · rename_i r rest w hw
    split_ifs at hs with hrecv
    simp only [Option.some.injEq] at hs
    subst hs
    obtain ⟨l1, l2, hl, -, hset⟩ := set_decomp hw
    subst hl
    have hWI : WorkerInv cfg w := h.workers w (by simp)
    obtain ⟨wpc, loc, recvd, adds⟩ := w
    simp only at hrecv
    subst hrecv
    unfold WorkerInv at hWI
    simp only [WPc.addsDone] at hWI
    obtain ⟨ha, hl⟩ := hWI
    rw [hset]
    have hmid : Inv cfg ⟨.push rest, [r], closed, wg, g,
        l1 ++ ⟨.recv, loc, recvd, adds⟩ :: l2, out⟩ := by
      obtain ⟨h1, h2, h3, h4, h5, h6, h7, h8, h9, h10, h11, h12⟩ := h
      refine ⟨h1, h2, h3, h4, ?_, ?_, h7, h8, h9, ?_, h11, h12⟩
      · intro x hx hp
        have := (h5 x hx hp).1
        rw [h2] at this
        simp [MainPc.hasClosed] at this
      · simpa [MainPc.remaining] using h6
      · intro hp; simp [MainPc.pastWait] at hp
    refine inv_workerUpdate hmid (by simp) (by simp) ⟨ha, recvd, rfl, hl⟩
      (by simp [WPc.pastLoop]) (by simp) ?_ ?_ ?_ ?_ ?_
    · simp only [List.append_nil]; exact List.Perm.refl _
    all_goals simp [ha, hgc, hgw, hgn]
  · simp at hs

theorem inv_step {cfg : Cfg} {s s2 : State} {a : Act} (h : Inv cfg s)
    (hs : step cfg s a = some s2) : Inv cfg s2 := by
  cases a with
  | main => exact inv_stepMain h hs
  | worker i => exact inv_stepWorker h hs
  | handoff i => exact inv_stepHandoff h hs

theorem inv_runActs {cfg : Cfg} (acts : List Act) {s s2 : State} (h : Inv cfg s)
    (hs : runActs cfg s acts = some s2) : Inv cfg s2 := by
  induction acts generalizing s with
  | nil =>
    simp only [runActs, Option.some.injEq] at hs
    exact hs ▸ h
  | cons a as ih =>
    simp only [runActs] at hs
    cases hst : step cfg s a with
    | none => rw [hst] at hs; simp at hs
    | some s3 =>
      rw [hst] at hs
      exact ih (inv_step h hst) hs

theorem inv_of_reachable {cfg : Cfg} {s : State} (h : Reachable cfg s) : Inv cfg s := by
  obtain ⟨acts, ha⟩ := h
  exact inv_runActs acts (inv_init cfg) ha

/-! ## The state after the wait -/

theorem wrap64_sum_congr {α : Type} (l : List α) (f g : α → Int)
    (h : ∀ x ∈ l, wrap64 (f x) = wrap64 (g x)) :
    wrap64 (l.map f).sum = wrap64 (l.map g).sum := by
  induction l with
  | nil => simp
  | cons x xs ih =>
    simp only [List.map_cons, List.sum_cons]
    rw [← wrap64_add_right, ih (fun y hy => h y (List.mem_cons_of_mem _ hy)),
      wrap64_add_right, ← wrap64_add_left, h x (List.mem_cons_self _ _), wrap64_add_left]

theorem sum_map_flatMap {α β : Type} (l : List α) (r : α → List β) (f : β → Int) :
    ((l.flatMap r).map f).sum = (l.map (fun a => ((r a).map f).sum)).sum := by
  induction l with
  | nil => simp
  | cons x xs ih => simp [List.flatMap_cons, List.map_append, List.sum_append, ih]

theorem length_eq_sum_ones {β : Type} (l : List β) :
    (l.length : Int) = (l.map (fun _ => (1 : Int))).sum := by
  induction l with
  | nil => simp
  | cons x xs ih => simp only [List.length_cons, List.map_cons, List.sum_cons, ← ih]; push_cast; ring

/-- The locals of a whole run of the loop from the initial locals. -/
theorem zero_after_sumCold (cfg : Cfg) (qs : List Query) :
    (Locals.zero.after cfg qs).sumCold = wrap64 ((qs.map Query.coldMs).sum) := by
  have h1 := after_sumCold cfg qs Locals.zero
  have h2 := (after_inRange cfg qs Locals.zero ⟨inInt64_zero, inInt64_zero, inInt64_zero⟩).1
  rw [wrap64_of_inInt64 h2] at h1
  simpa [Locals.zero] using h1

theorem zero_after_sumWarm (cfg : Cfg) (qs : List Query) :
    (Locals.zero.after cfg qs).sumWarm = wrap64 ((qs.map Query.warmMs).sum) := by
  have h1 := after_sumWarm cfg qs Locals.zero
  have h2 := (after_inRange cfg qs Locals.zero ⟨inInt64_zero, inInt64_zero, inInt64_zero⟩).2.1
  rw [wrap64_of_inInt64 h2] at h1
  simpa [Locals.zero] using h1

theorem zero_after_count (cfg : Cfg) (qs : List Query) :
    (Locals.zero.after cfg qs).count = wrap64 (qs.length : Int) := by
  have h1 := after_count cfg qs Locals.zero
  have h2 := (after_inRange cfg qs Locals.zero ⟨inInt64_zero, inInt64_zero, inInt64_zero⟩).2.2
  rw [wrap64_of_inInt64 h2] at h1
  simpa [Locals.zero] using h1

/-- Facts about a state in which the main goroutine is past `Wait`. -/
theorem pastWait_facts {cfg : Cfg} {s : State} (hr : Reachable cfg s)
    (hp : s.pc.pastWait = true) :
    s.ws.length = cfg.workers ∧
    (∀ w ∈ s.ws, w.pc = .exited ∧ w.adds = 3 ∧ w.loc = Locals.zero.after cfg w.recvd ∧
      ∀ q ∈ w.recvd, q.succeeds) ∧
    (1 ≤ cfg.workers → (s.ws.flatMap (fun w => w.recvd)).Perm cfg.rows) := by
  have h := inv_of_reachable hr
  have hall := h.joined hp
  refine ⟨?_, ?_, ?_⟩
  · have := h.spawned
    cases hpc : s.pc <;> simp [hpc, MainPc.pastWait] at hp this <;> exact this
  · intro w hw
    have hwi := h.workers w hw
    have hex := hall w hw
    unfold WorkerInv at hwi
    rw [hex] at hwi
    simp only [WPc.addsDone, processQueries] at hwi
    exact ⟨hex, hwi.1, workerLoop_next_eq hwi.2, workerLoop_next_succeeds hwi.2⟩
  · intro hk
    have hlen : s.ws.length = cfg.workers := by
      have := h.spawned
      cases hpc : s.pc <;> simp [hpc, MainPc.pastWait] at hp this <;> exact this
    have hne : s.ws ≠ [] := by
      intro he; rw [he] at hlen; simp at hlen; omega
    obtain ⟨w, hw⟩ := List.exists_mem_of_ne_nil _ hne
    have hd := h.drained w hw (by rw [hall w hw]; rfl)
    have hc := h.conserved
    rw [hd.2] at hc
    have hrem : s.pc.remaining cfg.rows = [] := by
      cases hpc : s.pc <;> simp [hpc, MainPc.pastWait, MainPc.remaining] at hp ⊢
    rw [hrem] at hc
    simpa using hc

theorem pastWait_globals {cfg : Cfg} {s : State} (hr : Reachable cfg s)
    (hp : s.pc.pastWait = true) (hk : 1 ≤ cfg.workers) :
    (∀ q ∈ cfg.rows, q.succeeds) ∧
    processQueries cfg cfg.rows = .next (Locals.zero.after cfg cfg.rows) ∧
    s.g = (Locals.zero.after cfg cfg.rows).totals := by
  have h := inv_of_reachable hr
  obtain ⟨-, hws, hperm⟩ := pastWait_facts hr hp
  have hperm := hperm hk
  have hsucc : ∀ q ∈ cfg.rows, q.succeeds := by
    intro q hq
    have := hperm.symm.subset hq
    obtain ⟨w, hw, hqw⟩ := List.mem_flatMap.mp this
    exact (hws w hw).2.2.2 q hqw
  refine ⟨hsucc, workerLoop_of_succeeds cfg cfg.rows _ hsucc, ?_⟩
  have e1 : s.g.cold = (Locals.zero.after cfg cfg.rows).sumCold := by
    rw [h.coldSum, zero_after_sumCold, ← (hperm.map Query.coldMs).sum_eq, sum_map_flatMap]
    apply wrap64_sum_congr
    intro w hw
    obtain ⟨-, ha, hl, -⟩ := hws w hw
    simp only [ha, show (1 : Nat) ≤ 3 by decide, if_true]
    rw [hl, zero_after_sumCold, wrap64_idem]
  have e2 : s.g.warm = (Locals.zero.after cfg cfg.rows).sumWarm := by
    rw [h.warmSum, zero_after_sumWarm, ← (hperm.map Query.warmMs).sum_eq, sum_map_flatMap]
    apply wrap64_sum_congr
    intro w hw
    obtain ⟨-, ha, hl, -⟩ := hws w hw
    simp only [ha, show (2 : Nat) ≤ 3 by decide, if_true]
    rw [hl, zero_after_sumWarm, wrap64_idem]
  have e3 : s.g.cnt = (Locals.zero.after cfg cfg.rows).count := by
    rw [h.cntSum, zero_after_count, length_eq_sum_ones,
      ← (hperm.map (fun _ => (1 : Int))).sum_eq, sum_map_flatMap]
    apply wrap64_sum_congr
    intro w hw
    obtain ⟨-, ha, hl, -⟩ := hws w hw
    simp only [ha, le_refl, if_true]
    rw [hl, zero_after_count, wrap64_idem, length_eq_sum_ones]
  cases hg : s.g
  simp only [hg] at e1 e2 e3
  simp [Locals.totals, e1, e2, e3]

/-! ## An execution that runs to the end -/

theorem runActs_append (cfg : Cfg) (s : State) (as bs : List Act) :
    runActs cfg s (as ++ bs) = (runActs cfg s as).bind (fun s2 => runActs cfg s2 bs) := by
  induction as generalizing s with
  | nil => simp [runActs]
  | cons a as ih =>
    simp only [List.cons_append, runActs]
    cases step cfg s a with
    | none => simp
    | some s3 => simp [ih]

theorem reachable_trans {cfg : Cfg} {s s2 : State} (h : Reachable cfg s) (acts : List Act)
    (h2 : runActs cfg s acts = some s2) : Reachable cfg s2 := by
  obtain ⟨as, ha⟩ := h
  exact ⟨as ++ acts, by rw [runActs_append, ha]; simpa using h2⟩

theorem getElem?_mid {α : Type} (pre post : List α) (w : α) :
    (pre ++ w :: post)[pre.length]? = some w := by
  rw [List.getElem?_append_right (le_refl _)]; simp

theorem set_mid {α : Type} (pre post : List α) (w w2 : α) :
    (pre ++ w :: post).set pre.length w2 = pre ++ w2 :: post := by
  induction pre with
  | nil => simp
  | cons x xs ih => simp [ih]

theorem run_spawn (cfg : Cfg) (j : Nat) (hj : j ≤ cfg.workers) :
    runActs cfg State.init (List.replicate j Act.main) =
      some ⟨.spawn j, [], false, j, ⟨0, 0, 0⟩, List.replicate j Worker.init, []⟩ := by
  induction j with
  | zero => simp [runActs, State.init]
  | succ j ih =>
    rw [List.replicate_succ', runActs_append, ih (by omega)]
    simp only [Option.some_bind, runActs, step, stepMain]
    rw [if_pos (by omega)]
    simp [List.replicate_succ']

theorem run_process (cfg : Cfg) (rows : List Query) (hs : ∀ q ∈ rows, q.succeeds)
    (l : Locals) (rc : List Query) (tl : List Worker) (wg : Int) (g : Globals) :
    runActs cfg ⟨.push rows, [], false, wg, g, ⟨.recv, l, rc, 0⟩ :: tl, []⟩
        (rows.flatMap (fun _ => [Act.handoff 0, Act.worker 0])) =
      some ⟨.push [], [], false, wg, g, ⟨.recv, l.after cfg rows, rc ++ rows, 0⟩ :: tl, []⟩ := by
  induction rows generalizing l rc with
  | nil => simp [runActs, Locals.after]
  | cons r rest ih =>
    have hr : r.succeeds := hs r (List.mem_cons_self _ _)
    rw [List.flatMap_cons, runActs_append]
    simp only [runActs, step, stepHandoff, stepWorker, List.getElem?_cons_zero, if_true,
      List.set_cons_zero, loopBody_of_succeeds cfg l r hr, Option.some_bind]
    rw [ih (fun q hq => hs q (List.mem_cons_of_mem _ hq))]
    simp [Locals.after]

theorem run_exit_from_recv (cfg : Cfg) (pc : MainPc) (wg : Int) (g : Globals)
    (pre post : List Worker) (l : Locals) (rc : List Query) (out : List Line) :
    ∃ wg2 g2, runActs cfg ⟨pc, [], true, wg, g, pre ++ ⟨.recv, l, rc, 0⟩ :: post, out⟩
        (List.replicate 5 (Act.worker pre.length)) =
      some ⟨pc, [], true, wg2, g2, pre ++ ⟨.exited, l, rc, 3⟩ :: post, out⟩ := by
  refine ⟨wg - 1, applyAdd (applyAdd (applyAdd g (.cold l.sumCold)) (.warm l.sumWarm))
    (.cnt l.count), ?_⟩
  simp only [List.replicate, runActs, step, stepWorker, getElem?_mid, set_mid, if_true]

theorem run_exit_from_connect (cfg : Cfg) (pc : MainPc) (wg : Int) (g : Globals)
    (pre post : List Worker) (out : List Line) (hc : cfg.connOk pre.length = true) :
    ∃ wg2 g2, runActs cfg ⟨pc, [], true, wg, g, pre ++ Worker.init :: post, out⟩
        (List.replicate 6 (Act.worker pre.length)) =
      some ⟨pc, [], true, wg2, g2, pre ++ ⟨.exited, Locals.zero, [], 3⟩ :: post, out⟩ := by
  refine ⟨wg - 1, applyAdd (applyAdd (applyAdd g (.cold Locals.zero.sumCold))
    (.warm Locals.zero.sumWarm)) (.cnt Locals.zero.count), ?_⟩
  simp only [List.replicate, runActs, step, stepWorker, getElem?_mid, set_mid, Worker.init,
    hc, if_true]

theorem run_exit_all (cfg : Cfg) (pc : MainPc) (out : List Line) (m : Nat) :
    ∀ (pre : List Worker) (wg : Int) (g : Globals),
      (∀ i, pre.length ≤ i → i < pre.length + m → cfg.connOk i = true) →
      ∃ acts wg2 g2, runActs cfg ⟨pc, [], true, wg, g, pre ++ List.replicate m Worker.init, out⟩
          acts =
        some ⟨pc, [], true, wg2, g2,
          pre ++ List.replicate m ⟨.exited, Locals.zero, [], 3⟩, out⟩ := by
  induction m with
  | zero => intro pre wg g _; exact ⟨[], wg, g, by simp [runActs]⟩
  | succ m ih =>
    intro pre wg g hc
    obtain ⟨wg1, g1, h1⟩ := run_exit_from_connect cfg pc wg g pre
      (List.replicate m Worker.init) out (hc _ (le_refl _) (by omega))
    obtain ⟨acts, wg2, g2, h2⟩ := ih (pre ++ [⟨.exited, Locals.zero, [], 3⟩]) wg1 g1
      (by intro i hi1 hi2; simp at hi1 hi2; exact hc i (by omega) (by omega))
    refine ⟨List.replicate 6 (Act.worker pre.length) ++ acts, wg2, g2, ?_⟩
    rw [runActs_append, List.replicate_succ, h1]
    simp only [Option.some_bind]
    simpa [List.replicate_succ] using h2

/-- With at least one worker, every connection and every execution succeeding,
some execution of the program runs to the end of `main`. -/
theorem exists_terminating_run (cfg : Cfg) (hk : 1 ≤ cfg.workers)
    (hconn : ∀ i, i < cfg.workers → cfg.connOk i = true)
    (hs : ∀ q ∈ cfg.rows, q.succeeds) :
    ∃ s, Reachable cfg s ∧ s.pc = .exited := by
  obtain ⟨k, hk2⟩ : ∃ k, cfg.workers = k + 1 := ⟨cfg.workers - 1, by omega⟩
  -- the workers are started, the first one connects
  have r1 : Reachable cfg ⟨.push cfg.rows, [], false, (cfg.workers : Int), ⟨0, 0, 0⟩,
      ⟨.recv, Locals.zero, [], 0⟩ :: List.replicate k Worker.init, []⟩ := by
    refine reachable_trans ⟨_, run_spawn cfg cfg.workers (le_refl _)⟩
      [Act.main, Act.worker 0] ?_
    simp only [runActs, step, stepMain, lt_irrefl, if_false, stepWorker, hk2,
      List.replicate_succ, List.getElem?_cons_zero, Worker.init, hconn 0 (by omega), if_true,
      List.set_cons_zero]
  -- the first worker processes every row, the channel is closed
  have r2 := reachable_trans r1 _ (run_process cfg cfg.rows hs Locals.zero []
    (List.replicate k Worker.init) _ _)
  have r3 : Reachable cfg ⟨.wait, [], true, (cfg.workers : Int), ⟨0, 0, 0⟩,
      ⟨.recv, Locals.zero.after cfg cfg.rows, [] ++ cfg.rows, 0⟩ ::
        List.replicate k Worker.init, []⟩ :=
    reachable_trans r2 [Act.main] (by simp only [runActs, step, stepMain])
  -- every worker leaves
  obtain ⟨wg1, g1, h4⟩ := run_exit_from_recv cfg .wait (cfg.workers : Int) ⟨0, 0, 0⟩ []
    (List.replicate k Worker.init) (Locals.zero.after cfg cfg.rows) ([] ++ cfg.rows) []
  have r4 := reachable_trans r3 _ h4
  obtain ⟨acts, wg2, g2, h5⟩ := run_exit_all cfg .wait [] k
    [⟨.exited, Locals.zero.after cfg cfg.rows, [] ++ cfg.rows, 3⟩] wg1 g1
    (by intro i hi1 hi2; simp at hi1 hi2; exact hconn i (by omega))
  have r5 := reachable_trans r4 acts h5
  -- the counter of the wait group is zero
  have hwg : wg2 = 0 := by
    have := (inv_of_reachable r5).group
    simp only at this
    rw [this]
    simp
  subst hwg
  have h6 : ∀ W : List Worker, runActs cfg ⟨.wait, [], true, 0, g2, W, []⟩
      [Act.main, Act.main, Act.main] =
      some ⟨.exited, [], true, 0, g2, W,
        [⟨g2.cnt, fdiv g2.cold g2.cnt⟩, ⟨g2.cnt, fdiv g2.warm g2.cnt⟩]⟩ := by
    intro W
    simp [runActs, step, stepMain]
  exact ⟨_, reachable_trans r5 _ (h6 _), rfl⟩

/-! ## Folding the atomic additions -/

theorem foldl_applyAdd_sums (ops : List AddOp) (g : Globals) :
    wrap64 (ops.foldl applyAdd g).cold = wrap64 (g.cold + (ops.map AddOp.coldPart).sum) ∧
    wrap64 (ops.foldl applyAdd g).warm = wrap64 (g.warm + (ops.map AddOp.warmPart).sum) ∧
    wrap64 (ops.foldl applyAdd g).cnt = wrap64 (g.cnt + (ops.map AddOp.cntPart).sum) := by
  induction ops generalizing g with
  | nil => simp
  | cons op ops ih =>
    simp only [List.foldl_cons, List.map_cons, List.sum_cons]
    obtain ⟨h1, h2, h3⟩ := ih (applyAdd g op)
    rw [h1, h2, h3]
    cases op <;>
      simp only [applyAdd, AddOp.coldPart, AddOp.warmPart, AddOp.cntPart, wrap64_add_left,
        zero_add, add_assoc, and_self]

theorem foldl_applyAdd_wrapped (ops : List AddOp) (g : Globals)
    (h : wrap64 g.cold = g.cold ∧ wrap64 g.warm = g.warm ∧ wrap64 g.cnt = g.cnt) :
    wrap64 (ops.foldl applyAdd g).cold = (ops.foldl applyAdd g).cold ∧
    wrap64 (ops.foldl applyAdd g).warm = (ops.foldl applyAdd g).warm ∧
    wrap64 (ops.foldl applyAdd g).cnt = (ops.foldl applyAdd g).cnt := by
  induction ops generalizing g with
  | nil => simpa using h
  | cons op ops ih =>
    simp only [List.foldl_cons]
    apply ih
    obtain ⟨h1, h2, h3⟩ := h
    cases op <;> simp [applyAdd, wrap64_idem, h1, h2, h3]

theorem sum_map_flatten {β : Type} (l : List (List β)) (f : β → Int) :
    (l.flatten.map f).sum = (l.map (fun p => (p.map f).sum)).sum := by
  induction l with
  | nil => simp
  | cons x xs ih =>
    simp only [List.flatten_cons, List.map_append, List.sum_append, List.map_cons, List.sum_cons, ih]

theorem length_le_length_flatMap {α β : Type} (l : List α) (r : α → List β) (a : α)
    (h : a ∈ l) : (r a).length ≤ (l.flatMap r).length := by
  induction l with
  | nil => simp at h
  | cons x xs ih =>
    simp only [List.flatMap_cons, List.length_append]
    rcases List.mem_cons.mp h with rfl | h
    · omega
    · have := ih h; omega

theorem printed_exited {cfg : Cfg} {s : State} (hr : Reachable cfg s) (hp : s.pc = .exited) :
    s.out = [⟨s.g.cnt, fdiv s.g.cold s.g.cnt⟩, ⟨s.g.cnt, fdiv s.g.warm s.g.cnt⟩] := by
  have := (inv_of_reachable hr).output
  rw [hp] at this
  exact this

theorem sum_map_const {β : Type} (l : List β) (f : β → Int) (c : Int)
    (h : ∀ x ∈ l, f x = c) : (l.map f).sum = (l.length : Int) * c := by
  induction l with
  | nil => simp
  | cons x xs ih =>
    simp only [List.map_cons, List.sum_cons, List.length_cons]
    rw [ih (fun y hy => h y (List.mem_cons_of_mem _ hy)), h x (List.mem_cons_self _ _)]
    push_cast
    ring

theorem msOf_mul (c : Int) : msOf (c * 1000000) = c := by
  unfold msOf
  exact Int.mul_tdiv_cancel c (by decide)

theorem addsDone_facts (pc : WPc) :
    pc.addsDone ≤ 3 ∧ (0 < pc.addsDone → pc.pastLoop = true) ∧
    (pc = .done ∨ pc = .exited → pc.addsDone = 3) ∧
    (pc.addsDone = 3 → pc = .done ∨ pc = .exited) := by
  cases pc <;> simp [WPc.addsDone, WPc.pastLoop]

/-! ## Panics -/

theorem step_keeps_panicked {cfg : Cfg} {s s2 : State} {a : Act}
    (hs : step cfg s a = some s2) (j : Nat) (w : Worker)
    (hj : s.ws[j]? = some w) (hp : w.pc = .panicked) : s2.ws[j]? = some w := by
  have hlt : j < s.ws.length := by
    by_contra hge
    rw [List.getElem?_eq_none (by omega)] at hj
    simp at hj
  cases a with
  | main =>
    simp only [step, stepMain] at hs
    split at hs
    · split_ifs at hs
      · simp only [Option.some.injEq] at hs
        subst hs
        simp only
        rw [List.getElem?_append_left hlt]
        exact hj
      · simp only [Option.some.injEq] at hs
        subst hs
        exact hj
    · split_ifs at hs
      simp only [Option.some.injEq] at hs
      subst hs
      exact hj
    · simp only [Option.some.injEq] at hs
      subst hs
      exact hj
    · split_ifs at hs
      simp only [Option.some.injEq] at hs
      subst hs
      exact hj
    · simp only [Option.some.injEq] at hs
      subst hs
      exact hj
    · simp only [Option.some.injEq] at hs
      subst hs
      exact hj
    · simp at hs
  | worker i =>
    simp only [step, stepWorker] at hs
    by_cases hij : i = j
    · subst hij
      rw [hj] at hs
      simp only [hp] at hs
      simp at hs
    · cases hw : s.ws[i]? with
      | none => rw [hw] at hs; simp at hs
      | some w2 =>
        rw [hw] at hs
        simp only at hs
        have key : ∀ (s3 : State) (w3 : Worker), s3.ws = s.ws.set i w3 → s3.ws[j]? = some w := by
          intro s3 w3 h3
          rw [h3, List.getElem?_set_ne hij]
          exact hj
        split at hs
        · split_ifs at hs <;> simp only [Option.some.injEq] at hs <;> subst hs <;>
            exact key _ _ rfl
        · split at hs
          · simp only [Option.some.injEq] at hs; subst hs; exact key _ _ rfl
          · split_ifs at hs
            simp only [Option.some.injEq] at hs; subst hs; exact key _ _ rfl
        · split at hs <;> simp only [Option.some.injEq] at hs <;> subst hs <;>
            exact key _ _ rfl
        · simp only [Option.some.injEq] at hs; subst hs; exact key _ _ rfl
        · simp only [Option.some.injEq] at hs; subst hs; exact key _ _ rfl
        · simp only [Option.some.injEq] at hs; subst hs; exact key _ _ rfl
        · simp only [Option.some.injEq] at hs; subst hs; exact key _ _ rfl
        · simp at hs
        · simp at hs
  | handoff i =>
    simp only [step, stepHandoff] at hs
    split at hs
    · rename_i r rest w2 hw
      split_ifs at hs with hrecv
      simp only [Option.some.injEq] at hs
      subst hs
      simp only
      by_cases hij : i = j
      · subst hij
        rw [hj] at hw
        simp only [Option.some.injEq] at hw
        subst hw
        rw [hp] at hrecv
        simp at hrecv
      · rw [List.getElem?_set_ne hij]
        exact hj
    · simp at hs

theorem runActs_keeps_panicked {cfg : Cfg} (acts : List Act) {s s2 : State}
    (hs : runActs cfg s acts = some s2) (j : Nat) (w : Worker)
    (hj : s.ws[j]? = some w) (hp : w.pc = .panicked) : s2.ws[j]? = some w := by
  induction acts generalizing s with
  | nil =>
    simp only [runActs, Option.some.injEq] at hs
    exact hs ▸ hj
  | cons a as ih =>
    simp only [runActs] at hs
    cases hst : step cfg s a with
    | none => rw [hst] at hs; simp at hs
    | some s3 =>
      rw [hst] at hs
      exact ih hs (step_keeps_panicked hst j w hj hp)

theorem not_pastWait_of_panicked {cfg : Cfg} {s : State} (hr : Reachable cfg s)
    (h : ∃ w ∈ s.ws, w.pc = .panicked) : s.pc.pastWait = false ∧ s.out = [] := by
  obtain ⟨w, hw, hp⟩ := h
  have hi := inv_of_reachable hr
  have hn : s.pc.pastWait = false := by
    by_contra hc
    simp only [Bool.not_eq_false] at hc
    have := hi.joined hc w hw
    rw [hp] at this
    simp at this
  exact ⟨hn, by rw [hi.output, printed_of_not_pastWait _ hn]⟩

theorem loopBody_panic_keeps {cfg : Cfg} {l l2 : Locals} {q : Query}
    (h : loopBody cfg l q = .panic l2) :
    l2.count = l.count ∧ l2.sumWarm = l.sumWarm ∧ l2.meas = l.meas ∧
      (q.coldErr = true → l2.sumCold = l.sumCold) := by
  unfold loopBody at h
  cases hc : q.coldErr <;> cases hw : q.warmErr <;> simp [hc, hw] at h <;> subst h <;> simp

/-- The states reached when no worker is started and the channel has capacity 0. -/
theorem zero_workers_stuck {cfg : Cfg} (hw : cfg.workers = 0) (hc : cfg.cap = 0)
    (hne : cfg.rows ≠ []) (acts : List Act) {s s2 : State}
    (hP : s.ws = [] ∧ s.buf = [] ∧ s.closed = false ∧ s.out = [] ∧
      (s.pc = .spawn 0 ∨ s.pc = .push cfg.rows))
    (hs : runActs cfg s acts = some s2) :
    s2.ws = [] ∧ s2.buf = [] ∧ s2.closed = false ∧ s2.out = [] ∧
      (s2.pc = .spawn 0 ∨ s2.pc = .push cfg.rows) := by
  induction acts generalizing s with
  | nil =>
    simp only [runActs, Option.some.injEq] at hs
    exact hs ▸ hP
  | cons a as ih =>
    simp only [runActs] at hs
    cases hst : step cfg s a with
    | none => rw [hst] at hs; simp at hs
    | some s3 =>
      rw [hst] at hs
      refine ih ?_ hs
      obtain ⟨h1, h2, h3, h4, h5⟩ := hP
      cases a with
      | main =>
        rcases h5 with h5 | h5
        · simp only [step, stepMain, h5, hw, lt_irrefl, if_false, Option.some.injEq] at hst
          subst hst
          exact ⟨h1, h2, h3, h4, Or.inr rfl⟩
        · obtain ⟨r, rest, hrows⟩ := List.exists_cons_of_ne_nil hne
          simp [step, stepMain, h5, hrows, hc] at hst
      | worker i => simp [step, stepWorker, h1] at hst
      | handoff i =>
        simp only [step, stepHandoff, h1] at hst
        split at hst <;> simp at *

/-! ## The delete loop -/

namespace Delete

theorem mainLoop_ok (f : Flags) (execOk : Nat → Bool) (left : Nat) :
    ∀ (i : Nat) (t : Int), (∀ j, i ≤ j → j < i + left → execOk j = true) →
      mainLoop f execOk left i t =
        ((List.range left).map (fun (k : Nat) => getDeleteQuery f (t + (k : Int) * f.amount)), false) := by
  induction left with
  | zero => intro i t _; simp [mainLoop]
  | succ n ih =>
    intro i t h
    simp only [mainLoop, h i (le_refl _) (by omega), if_true]
    rw [ih (i + 1) (t + f.amount) (fun j h1 h2 => h j (by omega) (by omega))]
    rw [List.range_succ_eq_map]
    simp only [List.map_cons, List.map_map, Nat.cast_zero, zero_mul, add_zero, Prod.mk.injEq,
      List.cons.injEq, true_and, and_true]
    apply List.map_congr_left
    intro k _
    simp only [Function.comp, Nat.cast_succ]
    congr 1
    ring

theorem mainLoop_fail (f : Flags) (execOk : Nat → Bool) (left : Nat) :
    ∀ (i : Nat) (t : Int) (j : Nat), j < left → (∀ k, k < j → execOk (i + k) = true) →
      execOk (i + j) = false →
      mainLoop f execOk left i t =
        ((List.range (j + 1)).map (fun (k : Nat) => getDeleteQuery f (t + (k : Int) * f.amount)),
          true) := by
  induction left with
  | zero => intro i t j hj; omega
  | succ n ih =>
    intro i t j hj hbefore hfail
    cases j with
    | zero =>
      simp only [add_zero] at hfail
      simp [mainLoop, hfail, List.range_succ]
    | succ m =>
      have h0 : execOk i = true := by simpa using hbefore 0 (by omega)
      simp only [mainLoop, h0, if_true]
      rw [ih (i + 1) (t + f.amount) m (by omega)
        (fun k hk => by have := hbefore (k + 1) (by omega); rwa [show i + 1 + k = i + (k + 1) by omega])
        (by rwa [show i + 1 + m = i + (m + 1) by omega])]
      rw [List.range_succ_eq_map (m + 1)]
      simp only [List.map_cons, List.map_map, Nat.cast_zero, zero_mul, add_zero, Prod.mk.injEq,
        List.cons.injEq, true_and, and_true]
      apply List.map_congr_left
      intro k _
      simp only [Function.comp, Nat.cast_succ]
      congr 1
      ring

theorem formatGoTime_mono {t u : Int} (h : t ≤ u) : formatGoTime t ≤ formatGoTime u := by
  unfold formatGoTime; omega

theorem cover (s a : Int) (x : Int) (n : Nat) :
    (∃ i, i < n ∧ stampInstant (formatGoTime (s + (i : Int) * a)) ≤ x ∧
        x < stampInstant (formatGoTime (s + ((i : Int) + 1) * a))) ↔
      (stampInstant (formatGoTime s) ≤ x ∧
        x < stampInstant (formatGoTime (s + (n : Int) * a))) := by
  have step : ∀ k : Nat, s + ((k : Int) + 1) * a = (s + (k : Int) * a) + a := by intro k; ring
  rcases le_or_lt 0 a with ha | ha
  · have mono : ∀ k : Nat, formatGoTime s ≤ formatGoTime (s + (k : Int) * a) := by
      intro k
      apply formatGoTime_mono
      have : 0 ≤ (k : Int) * a := mul_nonneg (by omega) ha
      omega
    induction n with
    | zero =>
      simp only [Nat.not_lt_zero, false_and, exists_false, Nat.cast_zero, zero_mul, add_zero,
        false_iff, not_and, not_lt]
      intro h; exact h
    | succ n ih =>
      have m1 := mono n
      have m2 : formatGoTime (s + (n : Int) * a) ≤ formatGoTime (s + ((n : Int) + 1) * a) := by
        apply formatGoTime_mono; rw [step]; omega
      constructor
      · rintro ⟨i, hi, h1, h2⟩
        rcases Nat.lt_succ_iff_lt_or_eq.mp hi with hlt | heq
        · have := ih.mp ⟨i, hlt, h1, h2⟩
          push_cast
          unfold stampInstant at *
          omega
        · subst heq
          push_cast
          unfold stampInstant at *
          omega
      · rintro ⟨h1, h2⟩
        push_cast at h2
        by_cases hx : x < stampInstant (formatGoTime (s + (n : Int) * a))
        · obtain ⟨i, hi, h3, h4⟩ := ih.mpr ⟨h1, hx⟩
          exact ⟨i, by omega, h3, h4⟩
        · exact ⟨n, by omega, by omega, h2⟩
  · constructor
    · rintro ⟨i, _, h1, h2⟩
      have : formatGoTime (s + ((i : Int) + 1) * a) ≤ formatGoTime (s + (i : Int) * a) := by
        apply formatGoTime_mono; rw [step]; omega
      unfold stampInstant at *
      omega
    · rintro ⟨h1, h2⟩
      have : formatGoTime (s + (n : Int) * a) ≤ formatGoTime s := by
        apply formatGoTime_mono
        have : (n : Int) * a ≤ 0 := mul_nonpos_of_nonneg_of_nonpos (by omega) (by omega)
        omega
      unfold stampInstant at *
      omega

end Delete

/-! # The claims -/

/-- C1: for every list of queries that all succeed (with their mocked
durations), every way of splitting the list among the workers (`parts`, one
list for each worker, together a permutation of the list) and every order in
which the `atomic.AddInt64` calls of the workers take effect (`ops`, a
permutation of all the calls), the final `(cold, warm, cnt)` equals the
`(sumCold, sumWarm, count)` that a single worker computes on the whole list;
in every execution of the interleaving semantics with at least one worker the
variables have that same value once `main` is past the wait; and that value is
the sum over the queries of the cold durations, each divided by 10^6 and
truncated on its own (rounded down, for durations that are not negative), the
same sum of the warm durations, and the number of queries, as `int64` values:
exactly these numbers whenever they are in the range of `int64`. -/
theorem totals_independent_of_assignment (cfg : Cfg) (parts : List (List Query))
    (ops : List AddOp) (hs : ∀ q ∈ cfg.rows, q.succeeds)
    (hassign : parts.flatten.Perm cfg.rows)
    (hops : ops.Perm (parts.flatMap (fun p => contribution (processQueries cfg p).locals))) :
    ∃ l, processQueries cfg cfg.rows = .next l ∧
      ops.foldl applyAdd ⟨0, 0, 0⟩ = l.totals ∧
      (∀ s, Reachable cfg s → s.pc.pastWait = true → 1 ≤ cfg.workers → s.g = l.totals) ∧
      l.sumCold = wrap64 ((cfg.rows.map (fun q => Int.tdiv q.coldTook 1000000)).sum) ∧
      l.sumWarm = wrap64 ((cfg.rows.map (fun q => Int.tdiv q.warmTook 1000000)).sum) ∧
      l.count = wrap64 (cfg.rows.length : Int) ∧
      ((∀ q ∈ cfg.rows, 0 ≤ q.coldTook ∧ 0 ≤ q.warmTook) →
        l.sumCold = wrap64 ((cfg.rows.map (fun q => q.coldTook / 1000000)).sum) ∧
        l.sumWarm = wrap64 ((cfg.rows.map (fun q => q.warmTook / 1000000)).sum)) ∧
      (inInt64 ((cfg.rows.map (fun q => Int.tdiv q.coldTook 1000000)).sum) →
        l.sumCold = (cfg.rows.map (fun q => Int.tdiv q.coldTook 1000000)).sum) ∧
      (inInt64 ((cfg.rows.map (fun q => Int.tdiv q.warmTook 1000000)).sum) →
        l.sumWarm = (cfg.rows.map (fun q => Int.tdiv q.warmTook 1000000)).sum) ∧
      ((cfg.rows.length : Int) < 9223372036854775808 → l.count = cfg.rows.length) := by
  have hc : (Locals.zero.after cfg cfg.rows).sumCold =
      wrap64 ((cfg.rows.map (fun q => Int.tdiv q.coldTook 1000000)).sum) :=
    zero_after_sumCold cfg cfg.rows
  have hw : (Locals.zero.after cfg cfg.rows).sumWarm =
      wrap64 ((cfg.rows.map (fun q => Int.tdiv q.warmTook 1000000)).sum) :=
    zero_after_sumWarm cfg cfg.rows
  have hn : (Locals.zero.after cfg cfg.rows).count = wrap64 (cfg.rows.length : Int) :=
    zero_after_count cfg cfg.rows
  refine ⟨Locals.zero.after cfg cfg.rows, workerLoop_of_succeeds cfg cfg.rows _ hs, ?_, ?_,
    hc, hw, hn, ?_, ?_, ?_, ?_⟩
  rotate_left 2
  · intro hpos
    have e1 : cfg.rows.map (fun q => q.coldTook / 1000000)
        = cfg.rows.map (fun q => Int.tdiv q.coldTook 1000000) :=
      List.map_congr_left (fun q hq => (Int.tdiv_eq_ediv (hpos q hq).1 (by decide)).symm)
    have e2 : cfg.rows.map (fun q => q.warmTook / 1000000)
        = cfg.rows.map (fun q => Int.tdiv q.warmTook 1000000) :=
      List.map_congr_left (fun q hq => (Int.tdiv_eq_ediv (hpos q hq).2 (by decide)).symm)
    rw [e1, e2]
    exact ⟨hc, hw⟩
  · intro h; rw [hc]; exact wrap64_of_inInt64 h
  · intro h; rw [hw]; exact wrap64_of_inInt64 h
  · intro h; rw [hn]; exact wrap64_of_inInt64 ⟨by omega, h⟩
  · have hpart : ∀ p ∈ parts, (processQueries cfg p).locals = Locals.zero.after cfg p := by
      intro p hp
      have : ∀ q ∈ p, q.succeeds := fun q hq =>
        hs q (hassign.subset (List.mem_flatten.mpr ⟨p, hp, hq⟩))
      simp [processQueries, workerLoop_of_succeeds cfg p _ this, Outcome.locals]
    obtain ⟨s1, s2, s3⟩ := foldl_applyAdd_sums ops ⟨0, 0, 0⟩
    obtain ⟨w1, w2, w3⟩ := foldl_applyAdd_wrapped ops ⟨0, 0, 0⟩ (by decide)
    rw [w1] at s1; rw [w2] at s2; rw [w3] at s3
    have e1 : (ops.foldl applyAdd ⟨0, 0, 0⟩).cold = (Locals.zero.after cfg cfg.rows).sumCold := by
      rw [s1, zero_after_sumCold, (hops.map AddOp.coldPart).sum_eq, sum_map_flatMap,
        ← (hassign.map Query.coldMs).sum_eq, sum_map_flatten, zero_add]
      apply wrap64_sum_congr
      intro p hp
      rw [hpart p hp]
      simp [contribution, AddOp.coldPart, AddOp.warmPart, AddOp.cntPart, zero_after_sumCold,
        wrap64_idem]
    have e2 : (ops.foldl applyAdd ⟨0, 0, 0⟩).warm = (Locals.zero.after cfg cfg.rows).sumWarm := by
      rw [s2, zero_after_sumWarm, (hops.map AddOp.warmPart).sum_eq, sum_map_flatMap,
        ← (hassign.map Query.warmMs).sum_eq, sum_map_flatten, zero_add]
      apply wrap64_sum_congr
      intro p hp
      rw [hpart p hp]
      simp [contribution, AddOp.coldPart, AddOp.warmPart, AddOp.cntPart, zero_after_sumWarm,
        wrap64_idem]
    have e3 : (ops.foldl applyAdd ⟨0, 0, 0⟩).cnt = (Locals.zero.after cfg cfg.rows).count := by
      rw [s3, zero_after_count, (hops.map AddOp.cntPart).sum_eq, sum_map_flatMap,
        length_eq_sum_ones, ← (hassign.map (fun _ => (1 : Int))).sum_eq, sum_map_flatten,
        zero_add]
      apply wrap64_sum_congr
      intro p hp
      rw [hpart p hp]
      simp only [contribution, AddOp.coldPart, AddOp.warmPart, AddOp.cntPart, List.map_cons,
        List.map_nil, List.sum_cons, List.sum_nil, zero_add, add_zero]
      rw [zero_after_count, wrap64_idem, length_eq_sum_ones]
    cases hg : ops.foldl applyAdd ⟨0, 0, 0⟩
    simp only [hg] at e1 e2 e3
    simp [Locals.totals, e1, e2, e3]
  · intro s hr hp hk
    exact (pastWait_globals hr hp hk).2.2

theorem totals_independent_of_assignment_witness :
    ∃ l, processQueries cfgShortTwo cfgShortTwo.rows = .next l ∧
      [AddOp.cold 10, .cold 20, .warm 0, .warm 0, .cnt 2, .cnt 1].foldl applyAdd ⟨0, 0, 0⟩
        = l.totals ∧
      l.sumCold = 30 ∧ l.sumWarm = 0 ∧ l.count = 3 := by
  obtain ⟨l, h1, h2, -, -, -, -, -, h3, h4, h5⟩ := totals_independent_of_assignment cfgShortTwo
    [[qShort, qShort], [qShort]]
    [AddOp.cold 10, .cold 20, .warm 0, .warm 0, .cnt 2, .cnt 1]
    (by decide) (by decide) (by decide)
  exact ⟨l, h1, h2, by rw [h3 (by decide)]; decide, by rw [h4 (by decide)]; decide,
    by rw [h5 (by decide)]; decide⟩

/-- C8: one iteration of the worker loop on a received template whose cold and
warm executions succeed and take `dc` and `dw` nanoseconds (both at least 0)
adds `dc / 10^6` rounded down to `sumCold`, `dw / 10^6` rounded down to
`sumWarm` and 1 to `count`, as `int64` additions (so exactly, whenever the sum
is in the range of `int64`); each duration is truncated on its own before it is
added, and an execution shorter than one millisecond adds 0. -/
theorem loopBody_adds_truncated_ms (cfg : Cfg) (l : Locals) (q : Query) (dc dw : Int)
    (hs : q.succeeds) (hc : q.coldTook = dc) (hw : q.warmTook = dw)
    (hdc : 0 ≤ dc) (hdw : 0 ≤ dw) :
    ∃ l2, loopBody cfg l q = .next l2 ∧
      l2.sumCold = wrap64 (l.sumCold + dc / 1000000) ∧
      l2.sumWarm = wrap64 (l.sumWarm + dw / 1000000) ∧
      l2.count = wrap64 (l.count + 1) ∧
      (inInt64 (l.sumCold + dc / 1000000) → l2.sumCold = l.sumCold + dc / 1000000) ∧
      (inInt64 (l.sumWarm + dw / 1000000) → l2.sumWarm = l.sumWarm + dw / 1000000) ∧
      (inInt64 (l.count + 1) → l2.count = l.count + 1) ∧
      (dc < 1000000 → inInt64 l.sumCold → l2.sumCold = l.sumCold) ∧
      (dw < 1000000 → inInt64 l.sumWarm → l2.sumWarm = l.sumWarm) := by
  refine ⟨_, loopBody_of_succeeds cfg l q hs, ?_, ?_, rfl, ?_, ?_, ?_, ?_, ?_⟩
  · simp only [Query.coldMs, hc, msOf_of_nonneg hdc]
  · simp only [Query.warmMs, hw, msOf_of_nonneg hdw]
  · intro h; simp only [Query.coldMs, hc, msOf_of_nonneg hdc]; exact wrap64_of_inInt64 h
  · intro h; simp only [Query.warmMs, hw, msOf_of_nonneg hdw]; exact wrap64_of_inInt64 h
  · intro h; exact wrap64_of_inInt64 h
  · intro h1 h2
    simp only [Query.coldMs, hc, msOf_eq_zero hdc h1, add_zero]
    exact wrap64_of_inInt64 h2
  · intro h1 h2
    simp only [Query.warmMs, hw, msOf_eq_zero hdw h1, add_zero]
    exact wrap64_of_inInt64 h2

theorem loopBody_adds_truncated_ms_witness :
    ∃ l2, loopBody cfgEmpty Locals.zero qShort = .next l2 ∧
      l2.sumCold = 10 ∧ l2.sumWarm = 0 ∧ l2.count = 1 := by
  obtain ⟨l2, h, h1, h2, h3, -⟩ := loopBody_adds_truncated_ms cfgEmpty Locals.zero qShort
    10500000 999999 (by decide) (by decide) (by decide) (by decide) (by decide)
  exact ⟨l2, h, by rw [h1]; decide, by rw [h2]; decide, by rw [h3]; decide⟩

/-- C5: a worker that receives the templates `t1 .. tn`, all of whose
executions succeed, passes to `db.Queryx` exactly the statements
`q1, q1, q2, q2, .., qn, qn` in this order, where `qi` is `ti` formatted with
the table name: the cold and the warm execution of a template run the same
string, the cold one first and nothing of this worker in between; and when the
clock readings of an iteration do not decrease in call order, the warm
measurement starts no earlier than the cold measurement ended. -/
theorem processQueries_cold_then_warm (cfg : Cfg) (received : List Query)
    (hs : ∀ q ∈ received, q.succeeds) :
    ∃ l, processQueries cfg received = .next l ∧
      l.issued = received.flatMap
        (fun q => [cfg.sprintf q.template cfg.table, cfg.sprintf q.template cfg.table]) ∧
      l.meas = received.map
        (fun q => ⟨cfg.sprintf q.template cfg.table, q.t0, q.t1, q.t2, q.t3⟩) ∧
      ((∀ q ∈ received, q.clockMonotone) →
        ∀ m ∈ l.meas, m.coldStart ≤ m.coldEnd ∧ m.coldEnd ≤ m.warmStart ∧
          m.warmStart ≤ m.warmEnd) := by
  refine ⟨_, workerLoop_of_succeeds cfg received _ hs, ?_, ?_, ?_⟩
  · rw [after_issued]; simp [Locals.zero, Cfg.stmtOf]
  · rw [after_meas]; simp [Locals.zero, Cfg.measOf, Cfg.stmtOf]
  · intro hm m hmem
    rw [after_meas] at hmem
    simp only [Locals.zero, List.nil_append, List.mem_map] at hmem
    obtain ⟨q, hq, rfl⟩ := hmem
    exact hm q hq

theorem processQueries_cold_then_warm_witness :
    ∃ l, processQueries cfgTwoThree cfgTwoThree.rows = .next l ∧
      l.issued = ["SELECT a FROM test", "SELECT a FROM test",
        "SELECT b FROM test", "SELECT b FROM test"] ∧
      ∀ m ∈ l.meas, m.coldEnd ≤ m.warmStart := by
  obtain ⟨l, h1, h2, -, h4⟩ := processQueries_cold_then_warm cfgTwoThree cfgTwoThree.rows
    (by decide)
  exact ⟨l, h1, by rw [h2]; decide, fun m hm => (h4 (by decide) m hm).2.1⟩

/-- C2: for every list of n queries whose executions all succeed, every number
of workers k >= 1 (also k > n) and every capacity of the channel, in every
execution the value of `cnt` once `main` is past the wait is n, the sequences
that the k workers received are together a permutation of the list (no query is
dropped, none is given to two workers) and every worker counted what it
received; and, when every worker gets its connection, there is an execution
that runs to the end of `main`. The length of a Go slice is below 2^63. -/
theorem count_conserved (cfg : Cfg) (hk : 1 ≤ cfg.workers)
    (hs : ∀ q ∈ cfg.rows, q.succeeds)
    (hn : (cfg.rows.length : Int) < 9223372036854775808) :
    (∀ s, Reachable cfg s → s.pc.pastWait = true →
      s.g.cnt = cfg.rows.length ∧ s.ws.length = cfg.workers ∧
      (s.ws.flatMap (fun w => w.recvd)).Perm cfg.rows ∧
      ∀ w ∈ s.ws, w.loc.count = w.recvd.length) ∧
    ((∀ i, i < cfg.workers → cfg.connOk i = true) →
      ∃ s, Reachable cfg s ∧ s.pc = .exited ∧ s.g.cnt = cfg.rows.length) := by
  have key : ∀ s, Reachable cfg s → s.pc.pastWait = true →
      s.g.cnt = cfg.rows.length ∧ s.ws.length = cfg.workers ∧
      (s.ws.flatMap (fun w => w.recvd)).Perm cfg.rows ∧
      ∀ w ∈ s.ws, w.loc.count = w.recvd.length := by
    intro s hr hp
    obtain ⟨hlen, hws, hperm⟩ := pastWait_facts hr hp
    have hperm := hperm hk
    obtain ⟨-, -, hg⟩ := pastWait_globals hr hp hk
    refine ⟨?_, hlen, hperm, ?_⟩
    · rw [hg]
      simp only [Locals.totals]
      rw [zero_after_count]
      exact wrap64_of_inInt64 ⟨by omega, hn⟩
    · intro w hw
      obtain ⟨-, -, hl, -⟩ := hws w hw
      rw [hl, zero_after_count]
      have h1 := length_le_length_flatMap s.ws (fun w => w.recvd) w hw
      have h2 := hperm.length_eq
      exact wrap64_of_inInt64 ⟨by omega, by simp only at h1; omega⟩
  refine ⟨key, ?_⟩
  intro hconn
  obtain ⟨s, hr, hp⟩ := exists_terminating_run cfg hk hconn hs
  exact ⟨s, hr, hp, (key s hr (by rw [hp]; rfl)).1⟩

theorem count_conserved_witness :
    ∃ s, Reachable cfgTwoThree s ∧ s.pc = .exited ∧ s.g.cnt = 2 := by
  obtain ⟨s, h1, h2, h3⟩ := (count_conserved cfgTwoThree (by decide) (by decide)
    (by decide)).2 (by decide)
  exact ⟨s, h1, h2, by rw [h3]; rfl⟩

/-- C7: for n >= 1 queries that each take exactly c milliseconds cold and w
milliseconds warm (and succeed), every number of workers k >= 1 and every
execution (every assignment of the queries to the workers), the two printed
lines carry the count n and the averages `totalCold / count` and
`totalWarm / count`, whose values are c and w; and such an execution exists
when every worker gets its connection. The totals n * c and n * w are assumed
to be in the range of `int64`. -/
theorem average_of_equal_durations (cfg : Cfg) (c w : Int) (hk : 1 ≤ cfg.workers)
    (hn : 1 ≤ cfg.rows.length)
    (hq : ∀ q ∈ cfg.rows, q.succeeds ∧ q.coldTook = c * 1000000 ∧ q.warmTook = w * 1000000)
    (hc : inInt64 ((cfg.rows.length : Int) * c)) (hw : inInt64 ((cfg.rows.length : Int) * w))
    (hlen : (cfg.rows.length : Int) < 9223372036854775808) :
    (∀ s, Reachable cfg s → s.pc = .exited →
      s.out = [⟨cfg.rows.length, fdiv ((cfg.rows.length : Int) * c) cfg.rows.length⟩,
        ⟨cfg.rows.length, fdiv ((cfg.rows.length : Int) * w) cfg.rows.length⟩]) ∧
    (fdiv ((cfg.rows.length : Int) * c) cfg.rows.length).exact = some (c : ℚ) ∧
    (fdiv ((cfg.rows.length : Int) * w) cfg.rows.length).exact = some (w : ℚ) ∧
    ((∀ i, i < cfg.workers → cfg.connOk i = true) → ∃ s, Reachable cfg s ∧ s.pc = .exited) := by
  have hn0 : (cfg.rows.length : Int) ≠ 0 := by omega
  have hnq : ((cfg.rows.length : Int) : ℚ) ≠ 0 := by exact_mod_cast hn0
  refine ⟨?_, ?_, ?_, ?_⟩
  · intro s hr hp
    obtain ⟨-, -, hg⟩ := pastWait_globals hr (by rw [hp]; rfl) hk
    rw [printed_exited hr hp, hg]
    simp only [Locals.totals]
    rw [zero_after_sumCold, zero_after_sumWarm, zero_after_count,
      sum_map_const cfg.rows Query.coldMs c
        (fun q hq2 => by unfold Query.coldMs; rw [(hq q hq2).2.1, msOf_mul]),
      sum_map_const cfg.rows Query.warmMs w
        (fun q hq2 => by unfold Query.warmMs; rw [(hq q hq2).2.2, msOf_mul]),
      wrap64_of_inInt64 hc, wrap64_of_inInt64 hw, wrap64_of_inInt64 ⟨by omega, hlen⟩]
  · simp only [fdiv, hn0, if_false, F64.exact]
    congr 1
    push_cast
    field_simp
  · simp only [fdiv, hn0, if_false, F64.exact]
    congr 1
    push_cast
    field_simp
  · intro hconn
    exact exists_terminating_run cfg hk hconn (fun q hq2 => (hq q hq2).1)

theorem average_of_equal_durations_witness :
    ∃ s, Reachable cfgFourTwo s ∧ s.pc = .exited ∧
      s.out = [⟨4, .quot 40 4⟩, ⟨4, .quot 16 4⟩] ∧
      (F64.quot 40 4).exact = some 10 ∧ (F64.quot 16 4).exact = some 4 := by
  obtain ⟨h1, h2, h3, h4⟩ := average_of_equal_durations cfgFourTwo 10 4 (by decide) (by decide)
    (by decide) (by decide) (by decide) (by decide)
  obtain ⟨s, hr, hp⟩ := h4 (by decide)
  exact ⟨s, hr, hp, h1 s hr hp, h2, h3⟩

/-- C6: in every state of every execution, each worker has made none of its
`atomic.AddInt64` calls while it is in its receive loop, has made all three
(each once: the counter of its calls is 3 and never more) when it is at
`workersGroup.Done()` or behind it, and makes them only after the loop; its
locals are then the totals of what it received; the shared variables hold the
sum of what the workers have added so far; the counter of the wait group is the
number of workers that have not called `Done`; and when `main` is past the
wait, all the started workers, as many as `--workers`, have made their three
additions and have returned. -/
theorem contribute_once_before_wait_returns (cfg : Cfg) (s : State) (hr : Reachable cfg s) :
    (∀ w ∈ s.ws, w.adds = w.pc.addsDone ∧ w.adds ≤ 3 ∧
      (0 < w.adds → w.pc.pastLoop = true) ∧
      (w.pc = .done ∨ w.pc = .exited → w.adds = 3) ∧
      (w.pc.pastLoop = true → processQueries cfg w.recvd = .next w.loc)) ∧
    s.g.cold = wrap64 ((s.ws.map (fun w => if 1 ≤ w.adds then w.loc.sumCold else 0)).sum) ∧
    s.g.warm = wrap64 ((s.ws.map (fun w => if 2 ≤ w.adds then w.loc.sumWarm else 0)).sum) ∧
    s.g.cnt = wrap64 ((s.ws.map (fun w => if 3 ≤ w.adds then w.loc.count else 0)).sum) ∧
    s.wg = ((s.ws.filter (fun w => decide (w.pc ≠ .exited))).length : Int) ∧
    (s.pc.pastWait = true →
      s.ws.length = cfg.workers ∧ ∀ w ∈ s.ws, w.pc = .exited ∧ w.adds = 3) := by
  have h := inv_of_reachable hr
  refine ⟨?_, h.coldSum, h.warmSum, h.cntSum, ?_, ?_⟩
  · intro w hw
    obtain ⟨ha, hl⟩ := h.workers w hw
    obtain ⟨f1, f2, f3, -⟩ := addsDone_facts w.pc
    refine ⟨ha, by omega, by rw [ha]; exact f2, by rw [ha]; exact f3, ?_⟩
    intro hp
    cases hpc : w.pc <;> simp [hpc, WPc.pastLoop] at hp hl <;> exact hl
  · rw [h.group]
    generalize s.ws = l
    induction l with
    | nil => simp
    | cons x xs ih =>
      simp only [List.map_cons, List.sum_cons, List.filter_cons, ih]
      by_cases hx : x.pc = .exited <;> simp [hx]
      omega
  · intro hp
    obtain ⟨hlen, hws, -⟩ := pastWait_facts hr hp
    exact ⟨hlen, fun w hw => ⟨(hws w hw).1, (hws w hw).2.1⟩⟩

theorem contribute_once_before_wait_returns_witness :
    ∃ s, Reachable cfgFourTwo s ∧ s.pc.pastWait = true ∧ s.ws.length = 2 ∧
      ∀ w ∈ s.ws, w.pc = .exited ∧ w.adds = 3 := by
  obtain ⟨s, hr, hp⟩ := exists_terminating_run cfgFourTwo (by decide) (by decide) (by decide)
  have hpw : s.pc.pastWait = true := by rw [hp]; rfl
  exact ⟨s, hr, hpw, (contribute_once_before_wait_returns cfgFourTwo s hr).2.2.2.2.2 hpw⟩

/-- The claim C4 fails: with an empty query file and one worker the program
runs to the end with `cnt = 0`, performs both divisions and prints NaN as both
averages. -/
theorem empty_input_prints_nan :
    ∃ s, Reachable cfgEmpty s ∧ s.pc = .exited ∧ s.g.cnt = 0 ∧
      s.out = [⟨0, .nan⟩, ⟨0, .nan⟩] :=
  ⟨⟨.exited, [], true, 0, ⟨0, 0, 0⟩, [⟨.exited, Locals.zero, [], 3⟩], [⟨0, .nan⟩, ⟨0, .nan⟩]⟩,
    ⟨[.main, .main, .main, .worker 0, .worker 0, .worker 0, .worker 0, .worker 0, .worker 0,
      .main, .main, .main], by decide⟩, rfl, rfl, rfl⟩

/-- C4 as amended: for an empty query file and any number of workers k >= 1,
every execution that reaches the end of `main` has `cnt = 0` (and `cold = 0`,
`warm = 0`), and the two printed lines carry the count 0 and the result of the
division `float64(0) / float64(0)`, which is NaN; such an execution exists when
every worker gets its connection. -/
theorem empty_input_count_zero_average_nan (cfg : Cfg) (hrows : cfg.rows = [])
    (hk : 1 ≤ cfg.workers) :
    (∀ s, Reachable cfg s → s.pc = .exited →
      s.g = ⟨0, 0, 0⟩ ∧ s.out = [⟨0, fdiv 0 0⟩, ⟨0, fdiv 0 0⟩]) ∧
    fdiv 0 0 = .nan ∧
    ((∀ i, i < cfg.workers → cfg.connOk i = true) → ∃ s, Reachable cfg s ∧ s.pc = .exited) := by
  refine ⟨?_, rfl, ?_⟩
  · intro s hr hp
    obtain ⟨-, -, hg⟩ := pastWait_globals hr (by rw [hp]; rfl) hk
    have hg0 : s.g = ⟨0, 0, 0⟩ := by
      rw [hg, hrows]; rfl
    refine ⟨hg0, ?_⟩
    rw [printed_exited hr hp, hg0]
  · intro hconn
    exact exists_terminating_run cfg hk hconn (by rw [hrows]; simp)

theorem empty_input_count_zero_average_nan_witness :
    fdiv 0 0 = F64.nan ∧
    ∃ s, Reachable cfgEmpty s ∧ s.pc = .exited ∧ s.g = ⟨0, 0, 0⟩ ∧
      s.out = [⟨0, .nan⟩, ⟨0, .nan⟩] := by
  obtain ⟨h1, h2, h3⟩ := empty_input_count_zero_average_nan cfgEmpty rfl (by decide)
  obtain ⟨s, hr, hp⟩ := h3 (by decide)
  exact ⟨h2, s, hr, hp, h1 s hr hp⟩

/-- C3: in every execution, once a worker has panicked (an execution of a
query returned an error, or the worker did not get its connection), no later
state has `main` past the wait and nothing is ever printed; the panicked worker
has made none of its additions to the shared totals; a worker that holds a
query of which an execution fails panics at its next move, with `count`,
`sumWarm` (and `sumCold`, when it is the cold execution that fails) as they
were, so the duration of the failed execution is in no total; the same for a
worker whose connection fails; and when something has been printed, every
execution of every received query succeeded, every worker got its connection
and, with at least one worker, every query of the file succeeded. -/
theorem error_aborts_run (cfg : Cfg) (s : State) (hr : Reachable cfg s) :
    ((∃ w ∈ s.ws, w.pc = .panicked) →
      ∀ acts s2, runActs cfg s acts = some s2 → s2.pc.pastWait = false ∧ s2.out = []) ∧
    (∀ w ∈ s.ws, w.pc = .panicked → w.adds = 0) ∧
    (∀ i w q, s.ws[i]? = some w → w.pc = .body q → ¬ q.succeeds →
      ∃ l, stepWorker cfg s i =
          some { s with ws := s.ws.set i { w with pc := .panicked, loc := l } } ∧
        l.count = w.loc.count ∧ l.sumWarm = w.loc.sumWarm ∧
        (q.coldErr = true → l.sumCold = w.loc.sumCold)) ∧
    (∀ i w, s.ws[i]? = some w → w.pc = .connect → cfg.connOk i = false →
      stepWorker cfg s i = some { s with ws := s.ws.set i { w with pc := .panicked } }) ∧
    (s.out ≠ [] →
      (∀ w ∈ s.ws, ∀ q ∈ w.recvd, q.succeeds) ∧
      (∀ i, i < cfg.workers → cfg.connOk i = true) ∧
      (1 ≤ cfg.workers → ∀ q ∈ cfg.rows, q.succeeds)) := by
  have hi := inv_of_reachable hr
  refine ⟨?_, ?_, ?_, ?_, ?_⟩
  · rintro ⟨w, hw, hp⟩ acts s2 h2
    obtain ⟨j, hj⟩ := List.getElem?_of_mem hw
    have := runActs_keeps_panicked acts h2 j w hj hp
    exact not_pastWait_of_panicked (reachable_trans hr acts h2)
      ⟨w, List.getElem?_mem this, hp⟩
  · intro w hw hp
    have := (hi.workers w hw).1
    rw [this, hp]
    rfl
  · intro i w q hw hpc hq
    obtain ⟨l, hl⟩ := loopBody_panic_of_not_succeeds cfg w.loc q hq
    obtain ⟨h1, h2, -, h4⟩ := loopBody_panic_keeps hl
    refine ⟨l, ?_, h1, h2, h4⟩
    simp only [stepWorker, hw, hpc, hl]
  · intro i w hw hpc hc
    simp only [stepWorker, hw, hpc, hc]
    simp
  · intro hout
    have hp : s.pc.pastWait = true := by
      by_contra hc
      simp only [Bool.not_eq_true] at hc
      exact hout (by rw [hi.output, printed_of_not_pastWait _ hc])
    obtain ⟨hlen, hws, -⟩ := pastWait_facts hr hp
    refine ⟨fun w hw => (hws w hw).2.2.2, ?_, fun hk => (pastWait_globals hr hp hk).1⟩
    intro i hlt
    have hlt2 : i < s.ws.length := by omega
    have hget : s.ws[i]? = some (s.ws.get ⟨i, hlt2⟩) := by
      simp [List.getElem?_eq_getElem hlt2]
    have hex := (hws _ (List.getElem?_mem hget)).1
    exact hi.connected i _ hget (by rw [hex]; simp) (by rw [hex]; simp)

theorem error_aborts_run_witness :
    Reachable cfgWarmFails statePanicked ∧ (∃ w ∈ statePanicked.ws, w.pc = .panicked) ∧
      ∀ acts s2, runActs cfgWarmFails statePanicked acts = some s2 →
        s2.pc.pastWait = false ∧ s2.out = [] :=
  have hr : Reachable cfgWarmFails statePanicked :=
    ⟨[.main, .main, .main, .worker 0, .worker 0, .worker 0], by decide⟩
  ⟨hr, by decide, (error_aborts_run cfgWarmFails statePanicked hr).1 (by decide)⟩

/-- C10: with `--workers=0` the channel has capacity 0 and no worker is
started. When the query file is not empty, every reachable state has `main`
in the spawn loop or at its first send with all rows still to send, the channel
open and empty and nothing printed, and at that send no move is enabled: the
send never completes. When the query file is empty, `main` alone runs through
close, wait and both prints, and every state past the wait has `cnt = 0`. -/
theorem zero_workers (table : String) (sprintf : String → String → String)
    (rows : List Query) (connOk : Nat → Bool) :
    (rows ≠ [] → ∀ s, Reachable (mainCfg table sprintf 0 rows connOk) s →
      (s.pc = .spawn 0 ∨ s.pc = .push rows) ∧ s.ws = [] ∧ s.buf = [] ∧ s.closed = false ∧
      s.out = [] ∧
      (s.pc = .push rows → ∀ a, step (mainCfg table sprintf 0 rows connOk) s a = none)) ∧
    (rows = [] →
      runActs (mainCfg table sprintf 0 rows connOk) State.init
          [.main, .main, .main, .main, .main] =
        some ⟨.exited, [], true, 0, ⟨0, 0, 0⟩, [], [⟨0, .nan⟩, ⟨0, .nan⟩]⟩ ∧
      ∀ s, Reachable (mainCfg table sprintf 0 rows connOk) s → s.pc.pastWait = true →
        s.g.cnt = 0 ∧ s.ws = []) := by
  refine ⟨?_, ?_⟩
  · intro hne s hr
    obtain ⟨acts, ha⟩ := hr
    obtain ⟨h1, h2, h3, h4, h5⟩ := @zero_workers_stuck (mainCfg table sprintf 0 rows connOk)
      rfl rfl hne acts State.init s ⟨rfl, rfl, rfl, rfl, Or.inl rfl⟩ ha
    refine ⟨h5, h1, h2, h3, h4, ?_⟩
    intro hpc a
    obtain ⟨r, rest, hrows⟩ := List.exists_cons_of_ne_nil hne
    subst hrows
    cases a with
    | main => simp [step, stepMain, hpc, mainCfg]
    | worker i => simp [step, stepWorker, h1]
    | handoff i =>
      simp only [step, stepHandoff, h1]
      split <;> simp at *
  · intro he
    subst he
    refine ⟨by simp [runActs, step, stepMain, mainCfg, State.init, fdiv], ?_⟩
    intro s hr hp
    have hi := inv_of_reachable hr
    have hlen : s.ws = [] := by
      have := (pastWait_facts hr hp).1
      simpa [mainCfg] using this
    refine ⟨?_, hlen⟩
    rw [hi.cntSum, hlen]
    decide

theorem zero_workers_witness :
    (∀ s, Reachable (mainCfg "test" sprintfS 0 [q10_4 "SELECT a FROM %s"] (fun _ => true)) s →
      s.out = []) ∧
    runActs (mainCfg "test" sprintfS 0 [] (fun _ => true)) State.init
        [.main, .main, .main, .main, .main] =
      some ⟨.exited, [], true, 0, ⟨0, 0, 0⟩, [], [⟨0, .nan⟩, ⟨0, .nan⟩]⟩ :=
  ⟨fun s hr => ((zero_workers "test" sprintfS [q10_4 "SELECT a FROM %s"] (fun _ => true)).1
      (by decide) s hr).2.2.2.2.1,
    ((zero_workers "test" sprintfS [] (fun _ => true)).2 rfl).1⟩

namespace Delete

/-- The claim C9 fails in two ways. With `--amount=500ms --limit=1
--use-drop-chunks=false` and start 0 the only query is a `DELETE` whose upper
bound names the instant 0, not the instant 0 + 500 ms: the empty range [0, 0),
where the comment of line 82 says that an iteration deletes `--amount` of data.
With `--amount=1h --limit=2` and a first execution that returns an error, one
query is issued, not two. -/
theorem delete_claim_counterexample :
    (main ⟨"test", false, 500000000, 1⟩ (fun _ => true) 0).1 = [.delete "test" 0 0] ∧
    stampInstant 0 ≠ 0 + (0 + 1) * 500000000 ∧
    main ⟨"test", false, 3600000000000, 2⟩ (fun _ => false) 0 =
      ([.delete "test" 0 3600], true) ∧
    [DeleteQuery.delete "test" 0 3600].length ≠ 2 := by
  decide

/-- C9 as amended: for a start time `s` and an amount that are whole seconds,
when every execution succeeds `main` issues exactly `limit` queries and the
i-th is built from the range start `s + i * amount`; at the first execution
that fails the loop ends in a panic and nothing more is issued. With
`--use-drop-chunks=false` the i-th query is a `DELETE` over the half-open range
from `s + i * amount` to `s + (i + 1) * amount`, the upper bound of a range is
the lower bound of the next, for `amount > 0` no two ranges overlap, and
together the first n ranges select exactly the instants from `s` to
`s + n * amount`; with `--use-drop-chunks=true` the i-th cutoff is
`s + (i + 1) * amount`. -/
theorem delete_ranges (f : Flags) (execOk : Nat → Bool) (s : Int)
    (hs : s % 1000000000 = 0) (ha : f.amount % 1000000000 = 0) :
    ((∀ i, i < f.limit → execOk i = true) →
      main f execOk s =
        ((List.range f.limit).map
          (fun (i : Nat) => getDeleteQuery f (s + (i : Int) * f.amount)), false) ∧
      (main f execOk s).1.length = f.limit) ∧
    (∀ j, j < f.limit → (∀ k, k < j → execOk k = true) → execOk j = false →
      main f execOk s =
        ((List.range (j + 1)).map
          (fun (i : Nat) => getDeleteQuery f (s + (i : Int) * f.amount)), true) ∧
      (main f execOk s).1.length = j + 1) ∧
    (f.dropChunks = false → ∀ i : Nat, ∃ lo hi,
      getDeleteQuery f (s + (i : Int) * f.amount) = .delete f.table lo hi ∧
      stampInstant lo = s + (i : Int) * f.amount ∧
      stampInstant hi = s + ((i : Int) + 1) * f.amount) ∧
    (f.dropChunks = true → ∀ i : Nat, ∃ older,
      getDeleteQuery f (s + (i : Int) * f.amount) = .dropChunks older f.table ∧
      stampInstant older = s + ((i : Int) + 1) * f.amount) ∧
    (0 < f.amount → ∀ i j : Nat, i < j →
      s + (i : Int) * f.amount < s + ((i : Int) + 1) * f.amount ∧
      s + ((i : Int) + 1) * f.amount ≤ s + (j : Int) * f.amount) ∧
    (f.dropChunks = false → ∀ (x : Int) (n : Nat),
      (∃ i, i < n ∧ (getDeleteQuery f (s + (i : Int) * f.amount)).selects x) ↔
        (s ≤ x ∧ x < s + (n : Int) * f.amount)) := by
  have hwhole : ∀ i : Int, stampInstant (formatGoTime (s + i * f.amount)) = s + i * f.amount := by
    intro i
    have : (s + i * f.amount) % 1000000000 = 0 := by
      rw [Int.add_emod, Int.mul_emod, hs, ha]
      simp
    unfold stampInstant formatGoTime
    omega
  have hshape : ∀ i : Nat, getDeleteQuery f (s + (i : Int) * f.amount) =
      if f.dropChunks then
        .dropChunks (formatGoTime (s + ((i : Int) + 1) * f.amount)) f.table
      else .delete f.table (formatGoTime (s + (i : Int) * f.amount))
        (formatGoTime (s + ((i : Int) + 1) * f.amount)) := by
    intro i
    have e : s + (i : Int) * f.amount + f.amount = s + ((i : Int) + 1) * f.amount := by ring
    simp only [getDeleteQuery, e]
  refine ⟨?_, ?_, ?_, ?_, ?_, ?_⟩
  · intro hok
    have h := mainLoop_ok f execOk f.limit 0 s (fun j _ hj => hok j (by omega))
    refine ⟨h, ?_⟩
    unfold main
    rw [h]
    simp
  · intro j hj hbefore hfail
    have h := mainLoop_fail f execOk f.limit 0 s j hj
      (fun k hk => by simpa using hbefore k hk) (by simpa using hfail)
    refine ⟨h, ?_⟩
    unfold main
    rw [h]
    simp
  · intro hd i
    refine ⟨_, _, ?_, hwhole i, hwhole (i + 1)⟩
    rw [hshape i, hd]
    simp
  · intro hd i
    refine ⟨_, ?_, hwhole (i + 1)⟩
    rw [hshape i, hd]
    simp
  · intro hpos i j hij
    have h1 : (i : Int) + 1 ≤ (j : Int) := by exact_mod_cast hij
    constructor
    · nlinarith
    · nlinarith
  · intro hd x n
    have hc := cover s f.amount x n
    have h0 : stampInstant (formatGoTime s) = s := by simpa using hwhole 0
    rw [h0, hwhole n] at hc
    rw [← hc]
    constructor
    · rintro ⟨i, hi, hsel⟩
      rw [hshape i, hd] at hsel
      exact ⟨i, hi, hsel⟩
    · rintro ⟨i, hi, hsel⟩
      refine ⟨i, hi, ?_⟩
      rw [hshape i, hd]
      exact hsel

theorem delete_ranges_witness :
    main ⟨"test", false, 21600000000000, 5⟩ (fun _ => true) 1451606400000000000 =
      ([.delete "test" 1451606400 1451628000, .delete "test" 1451628000 1451649600,
        .delete "test" 1451649600 1451671200, .delete "test" 1451671200 1451692800,
        .delete "test" 1451692800 1451714400], false) := by
  have h := ((delete_ranges ⟨"test", false, 21600000000000, 5⟩ (fun _ => true)
    1451606400000000000 (by decide) (by decide)).1 (by decide)).1
  rw [h]
  decide

end Delete

end BenchmarkPostgres -- eof
